import Mathlib

/-!
Verification development for the eloise.rip repository: a Pelican static-site
blog with a media transcoding script (transcode_videos.py), a voice-clip
upload service (voice_uploader/app.py), a post-build output validator
(validate_output.py), and a video marker-expansion plugin
(pelican-plugins/video_embed/video_embed.py).

Each Python component is shallowly embedded below.  Pure string and list
manipulation is translated directly; interactions with the outside world
(filesystem existence checks, external encoder invocations, probe results,
generated identifiers, clock readings) are supplied through explicit
environment records, and the functions are deterministic given those inputs.
All character-level operations model the ASCII behaviour of the Python
originals; the inputs appearing in the theorems below are ASCII.

All string logic is implemented over List Char (the data field of String) so
that every definition kernel-evaluates on concrete inputs.
-/

namespace EloiseRip

/-! ## Shared string helpers (List Char based) -/

/-- Whitespace test matching the ASCII fragment of Python str.strip and
regex backslash-s: space, tab, newline, carriage return, vertical tab,
form feed. -/
def isSpaceCh (c : Char) : Bool :=
  decide (c = ' ') || decide (c = '\t') || decide (c = '\n') ||
  decide (c = '\r') || decide (c = '\x0b') || decide (c = '\x0c')

/-- ASCII decimal digit test (Python regex backslash-d on ASCII input). -/
def isDigitCh (c : Char) : Bool := c.isDigit

/-- List-level startsWith (Python str.startswith). -/
def startsWithL (l pat : List Char) : Bool :=
  decide (l.take pat.length = pat)

/-- List-level endsWith (Python str.endswith). -/
def endsWithL (l pat : List Char) : Bool :=
  decide (l.drop (l.length - pat.length) = pat)

/-- List-level substring containment (Python "pat in s"). -/
def containsSubL (l pat : List Char) : Bool :=
  match l with
  | [] => startsWithL [] pat
  | c :: rest => startsWithL (c :: rest) pat || containsSubL rest pat

/-- Lowercasing (Python str.lower on ASCII input). -/
def lowerL (l : List Char) : List Char := l.map Char.toLower

/-- Strip leading and trailing whitespace (Python str.strip, ASCII). -/
def stripL (l : List Char) : List Char :=
  ((l.dropWhile isSpaceCh).reverse.dropWhile isSpaceCh).reverse

/-- Final path component (Python pathlib: the name of a path). -/
def baseNameL (l : List Char) : List Char :=
  (l.reverse.takeWhile (fun c => decide (c ≠ '/'))).reverse

/-- Split a path component name into (stem, suffix) following Python
pathlib semantics: the suffix is the part from the last dot on, except
that a leading dot (hidden file) or a trailing dot yields no suffix. -/
def splitExtL (l : List Char) : List Char × List Char :=
  let r := l.reverse
  let after := r.takeWhile (fun c => decide (c ≠ '.'))
  match r.dropWhile (fun c => decide (c ≠ '.')) with
  | '.' :: pre =>
      if pre.isEmpty || after.isEmpty then (l, [])
      else (pre.reverse, '.' :: after.reverse)
  | _ => (l, [])

/-- Stem of the final component of a path (Python Path.stem). -/
def pathStem (p : String) : String := ⟨(splitExtL (baseNameL p.data)).1⟩

/-- Suffix of the final component of a path (Python Path.suffix). -/
def pathSuffix (p : String) : String := ⟨(splitExtL (baseNameL p.data)).2⟩

/-- String-level lowercase. -/
def strLower (s : String) : String := ⟨lowerL s.data⟩

/-- String-level membership in a list of strings (Python "in" on a set of
string literals). -/
def strMem (s : String) (l : List String) : Bool :=
  l.any (fun t => decide (s = t))

/-- Record update for a boolean file-existence map: mark one path present. -/
def setFile (fs : String → Bool) (p : String) : String → Bool :=
  fun q => if q = p then true else fs q

/-- Ordered insertion into a sorted list. -/
def ordInsert {α : Type} (le : α → α → Bool) (a : α) : List α → List α
  | [] => [a]
  | b :: l => if le a b then a :: b :: l else b :: ordInsert le a l

/-- Insertion sort, modelling the Python sorted builtin over paths: on a
linearly ordered type with identical duplicates the sorted permutation is
unique, so any correct sort produces this list. -/
def ordSort {α : Type} (le : α → α → Bool) : List α → List α
  | [] => []
  | a :: l => ordInsert le a (ordSort le l)

end EloiseRip

namespace EloiseRip.Transcode

/-!  Embedding of transcode_videos.py.  File existence, encoder success and
probe results are read from a MediaEnv oracle; the functions record the
exact encoder command lines they invoke. -/

/-- Allowed video extensions (VIDEO_EXT in transcode_videos.py). -/
def VIDEO_EXT : List String :=
  [".mp4", ".mov", ".mkv", ".avi", ".webm", ".m4v", ".gif"]

/-- HEIC extensions (HEIC_EXT). -/
def HEIC_EXT : List String := [".heic", ".heif"]

/-- Allowed image extensions (IMAGE_EXT = base set union HEIC_EXT). -/
def IMAGE_EXT : List String :=
  [".jpg", ".jpeg", ".png", ".bmp", ".tiff", ".tif", ".webp"] ++ HEIC_EXT

/-- All allowed extensions (ALLOWED_EXT = VIDEO_EXT union IMAGE_EXT). -/
def ALLOWED_EXT : List String := VIDEO_EXT ++ IMAGE_EXT

/-- HQ marker suffix (HQ_SUFFIX). -/
def HQ_SUFFIX : String := "_hq"

/-- CRF bonus for HQ masters (HQ_CRF_BONUS). -/
def HQ_CRF_BONUS : Int := 8

/-- Command-line configuration (parse_args).  poster_time is a float in
Python; it is only ever interpolated into a command line, so it is carried
here as the string str(cfg.poster_time). -/
structure Cfg where
  src : String
  dest : String
  maxDimension : Int
  crfMp4 : Int
  crfWebm : Int
  posterTime : String
  force : Bool
  quiet : Bool

/-- Environment oracle: filesystem contents, encoder and probe outcomes,
Pillow availability and HEIC conversion results. -/
structure MediaEnv where
  hasFile : String → Bool
  ffmpegOk : List String → Bool
  probeAlpha : String → Bool
  pillowOk : Bool
  heicOk : String → Bool
  heicPng : String → String

/-- Result of running a transcode step: the encoder commands invoked in
order, and the file-existence map afterwards (a successful encoder run
creates its output file, the last argument of the command). -/
structure RunResult where
  cmds : List (List String)
  fs : String → Bool

/-- Scale filter string (build_scale_filter). -/
def build_scale_filter (maxDimension : Int) : String :=
  "scale='if(gt(iw,ih),min(" ++ toString maxDimension ++
  ",iw),-2)':'if(gt(ih,iw),min(" ++ toString maxDimension ++ ",ih),-2)'"

/-- Extension classification (is_video_file). -/
def is_video_file (p : String) : Bool :=
  strMem (strLower (pathSuffix p)) VIDEO_EXT

/-- Extension classification (is_image_file). -/
def is_image_file (p : String) : Bool :=
  strMem (strLower (pathSuffix p)) IMAGE_EXT

/-- HQ variant test (is_high_quality_variant): stem lowercased ends with
the HQ suffix. -/
def is_high_quality_variant (p : String) : Bool :=
  endsWithL (lowerL (pathStem p).data) HQ_SUFFIX.data

/-- HEIC test (needs_heic_conversion). -/
def needs_heic_conversion (p : String) : Bool :=
  strMem (strLower (pathSuffix p)) HEIC_EXT

/-- HEIC preparation (prepare_image_source): returns the ffmpeg-ready input
path and a success flag.  The temporary png path comes from the
environment; failure paths return the source unchanged with flag false. -/
def prepare_image_source (env : MediaEnv) (srcFile : String) :
    String × Bool :=
  if needs_heic_conversion srcFile then
    if env.pillowOk then
      if env.heicOk srcFile then (env.heicPng srcFile, true)
      else (srcFile, false)
    else (srcFile, false)
  else (srcFile, true)

/-- Alpha probe (image_has_alpha), delegated to the environment oracle. -/
def image_has_alpha (env : MediaEnv) (p : String) : Bool :=
  env.probeAlpha p

/-- Run one ffmpeg command: append it to the invocation list and, when the
environment reports success, create its output file. -/
def runStep (env : MediaEnv) (st : RunResult) (cmd : List String)
    (out : String) : RunResult :=
  { cmds := st.cmds ++ [cmd]
    fs := if env.ffmpegOk cmd then setFile st.fs out else st.fs }

/-- Output path of the mp4 derivative of a video source. -/
def mp4Path (cfg : Cfg) (srcFile : String) : String :=
  cfg.dest ++ "/video/" ++ pathStem srcFile ++ ".mp4"

/-- Output path of the webm derivative of a video source. -/
def webmPath (cfg : Cfg) (srcFile : String) : String :=
  cfg.dest ++ "/video/" ++ pathStem srcFile ++ ".webm"

/-- Output path of the poster jpg of a video source. -/
def posterPath (cfg : Cfg) (srcFile : String) : String :=
  cfg.dest ++ "/video/" ++ pathStem srcFile ++ ".jpg"

/-- MP4 encode command of transcode_video. -/
def mp4Cmd (cfg : Cfg) (srcFile : String) (crf : Int) : List String :=
  ["ffmpeg", "-y", "-i", srcFile,
   "-vf", build_scale_filter cfg.maxDimension,
   "-c:v", "libx264", "-preset", "veryfast",
   "-crf", toString crf,
   "-pix_fmt", "yuv420p", "-movflags", "+faststart",
   "-c:a", "aac", "-b:a", "128k", mp4Path cfg srcFile]

/-- WebM encode command of transcode_video. -/
def webmCmd (cfg : Cfg) (srcFile : String) (crf : Int) : List String :=
  ["ffmpeg", "-y", "-i", srcFile,
   "-vf", build_scale_filter cfg.maxDimension,
   "-c:v", "libvpx-vp9", "-b:v", "0", "-crf", toString crf,
   "-speed", "8", "-tile-columns", "2", "-row-mt", "1",
   "-c:a", "libopus", "-b:a", "96k", webmPath cfg srcFile]

/-- Poster extraction command of transcode_video. -/
def posterCmd (cfg : Cfg) (srcFile : String) : List String :=
  ["ffmpeg", "-y", "-i", srcFile, "-ss", cfg.posterTime,
   "-vframes", "1", "-vf", build_scale_filter cfg.maxDimension,
   posterPath cfg srcFile]

/-- Video pipeline (transcode_video): skips entirely when all three outputs
exist and force is unset, otherwise encodes each individually missing (or
forced) output. -/
def transcode_video (cfg : Cfg) (env : MediaEnv) (srcFile : String) :
    RunResult :=
  let isHq := is_high_quality_variant srcFile
  let crfMp4 := max (cfg.crfMp4 - (if isHq then HQ_CRF_BONUS else 0)) 0
  let crfWebm := max (cfg.crfWebm - (if isHq then HQ_CRF_BONUS else 0)) 0
  let mp4Out := mp4Path cfg srcFile
  let webmOut := webmPath cfg srcFile
  let posterOut := posterPath cfg srcFile
  if !cfg.force && env.hasFile mp4Out && env.hasFile webmOut &&
      env.hasFile posterOut then
    { cmds := [], fs := env.hasFile }
  else
    let st0 : RunResult := { cmds := [], fs := env.hasFile }
    let st1 := if cfg.force || !st0.fs mp4Out then
        runStep env st0 (mp4Cmd cfg srcFile crfMp4) mp4Out
      else st0
    let st2 := if cfg.force || !st1.fs webmOut then
        runStep env st1 (webmCmd cfg srcFile crfWebm) webmOut
      else st1
    if cfg.force || !st2.fs posterOut then
      runStep env st2 (posterCmd cfg srcFile) posterOut
    else st2

/-- Output path of an image derivative with the given extension. -/
def imgPath (cfg : Cfg) (srcFile ext : String) : String :=
  cfg.dest ++ "/images/" ++ pathStem srcFile ++ ext

/-- AVIF encode command of transcode_image. -/
def avifCmd (cfg : Cfg) (srcFile inputPath : String) : List String :=
  ["ffmpeg", "-y", "-i", inputPath,
   "-vf", build_scale_filter cfg.maxDimension,
   "-c:v", "libaom-av1", "-crf", "32", "-b:v", "0",
   imgPath cfg srcFile ".avif"]

/-- WebP encode command of transcode_image. -/
def webpCmd (cfg : Cfg) (srcFile inputPath : String) : List String :=
  ["ffmpeg", "-y", "-i", inputPath,
   "-vf", build_scale_filter cfg.maxDimension,
   "-c:v", "libwebp", "-quality", "82", "-lossless", "0",
   imgPath cfg srcFile ".webp"]

/-- JPEG encode command of transcode_image. -/
def jpgCmd (cfg : Cfg) (srcFile inputPath : String) : List String :=
  ["ffmpeg", "-y", "-i", inputPath,
   "-vf", build_scale_filter cfg.maxDimension,
   "-c:v", "mjpeg", "-q:v", "3",
   imgPath cfg srcFile ".jpg"]

/-- PNG encode command of transcode_image. -/
def pngCmd (cfg : Cfg) (srcFile inputPath : String) : List String :=
  ["ffmpeg", "-y", "-i", inputPath,
   "-vf", build_scale_filter cfg.maxDimension,
   "-c:v", "png",
   imgPath cfg srcFile ".png"]

/-- PNG applicability test of transcode_image: source extension png or webp,
or the prepared input has an alpha channel. -/
def needsPng (cfg : Cfg) (env : MediaEnv) (srcFile inputPath : String) :
    Bool :=
  strMem (strLower (pathSuffix srcFile)) [".png", ".webp"] ||
  image_has_alpha env inputPath

/-- The encode command associated with one image output extension. -/
def cmdOfExt (cfg : Cfg) (srcFile inputPath ext : String) : List String :=
  if ext = ".avif" then avifCmd cfg srcFile inputPath
  else if ext = ".webp" then webpCmd cfg srcFile inputPath
  else if ext = ".jpg" then jpgCmd cfg srcFile inputPath
  else pngCmd cfg srcFile inputPath

/-- The encode list of transcode_image: (output path, command) pairs in
source order, with the png entry appended when applicable. -/
def imageEncodes (cfg : Cfg) (env : MediaEnv) (srcFile inputPath : String) :
    List (String × List String) :=
  [(imgPath cfg srcFile ".avif", avifCmd cfg srcFile inputPath),
   (imgPath cfg srcFile ".webp", webpCmd cfg srcFile inputPath),
   (imgPath cfg srcFile ".jpg", jpgCmd cfg srcFile inputPath)] ++
  (if needsPng cfg env srcFile inputPath then
    [(imgPath cfg srcFile ".png", pngCmd cfg srcFile inputPath)]
  else [])

/-- One iteration of the encode loop of transcode_image: skip when the
output exists and force is unset, otherwise run the encoder. -/
def imageStep (cfg : Cfg) (env : MediaEnv) (st : RunResult)
    (e : String × List String) : RunResult :=
  if !cfg.force && st.fs e.1 then st
  else runStep env st e.2 e.1

/-- Image pipeline (transcode_image): prepares the input (HEIC conversion),
aborts when preparation fails, then runs the encode loop. -/
def transcode_image (cfg : Cfg) (env : MediaEnv) (srcFile : String) :
    RunResult :=
  let p := prepare_image_source env srcFile
  if !p.2 then { cmds := [], fs := env.hasFile }
  else
    (imageEncodes cfg env srcFile p.1).foldl (imageStep cfg env)
      { cmds := [], fs := env.hasFile }

/-- Dispatch (transcode_file): videos to the video pipeline, images to the
image pipeline, anything else untouched. -/
def transcode_file (cfg : Cfg) (env : MediaEnv) (srcFile : String) :
    RunResult :=
  if is_video_file srcFile then transcode_video cfg env srcFile
  else if is_image_file srcFile then transcode_image cfg env srcFile
  else { cmds := [], fs := env.hasFile }

/-- Directory listing environment for discover_sources: the entries of the
source directory (full paths, in directory order) and a regular-file test. -/
structure DirEnv where
  entries : List String
  isFile : String → Bool

/-- Source discovery (discover_sources): sorted directory entries filtered
to regular files with an allowed (lowercased) extension. -/
def discover_sources (denv : DirEnv) : List String :=
  (ordSort (fun a b => decide (a ≤ b)) denv.entries).filter
    (fun p => denv.isFile p && strMem (strLower (pathSuffix p)) ALLOWED_EXT)

end EloiseRip.Transcode

namespace EloiseRip.Voice

/-!  Embedding of voice_uploader/app.py.  The jobs dictionary is modelled
as an insertion-ordered association list with Python dict lookup and update
semantics.  The secure_filename sanitiser (werkzeug), generated UUIDs,
clock readings, and subprocess outcomes are supplied by the caller or by an
environment record. -/

/-- Output container format (OUTPUT_FORMAT). -/
def OUTPUT_FORMAT : String := "m4a"

/-- One job record of the in-memory jobs dictionary. -/
structure Job where
  status : String
  input_filename : String
  output_format : String
  output_filename : String
  output_path : Option String
  error : Option String
  push_error : Option String
  created_at : String
  completed_at : Option String
deriving DecidableEq, Repr

/-- The jobs dictionary: an insertion-ordered association list. -/
abbrev JobMap := List (String × Job)

/-- Dictionary lookup (jobs.get(job_id)). -/
def lookupJob (m : JobMap) (k : String) : Option Job :=
  match m with
  | [] => none
  | kv :: rest => if kv.1 = k then some kv.2 else lookupJob rest k

/-- Dictionary store (jobs[job_id] = record): replace in place when the key
is present, append otherwise. -/
def storeJob (m : JobMap) (k : String) (v : Job) : JobMap :=
  match m with
  | [] => [(k, v)]
  | kv :: rest => if kv.1 = k then (k, v) :: rest
    else kv :: storeJob rest k v

/-- Guarded update (set_job): update the record under the lock only when the
identifier is present, leaving the map untouched otherwise.  The keyword
updates of the Python call site are modelled as a record transformer. -/
def set_job (m : JobMap) (k : String) (f : Job → Job) : JobMap :=
  match lookupJob m k with
  | none => m
  | some j => storeJob m k (f j)

/-- Clip identifier match at one position: two ASCII digits, a dash, two
ASCII digits (regex CLIP_ID_PATTERN), returning the captured group. -/
def clipMatchAt (l : List Char) : Option (List Char) :=
  match l with
  | a :: b :: '-' :: c :: d :: _ =>
      if isDigitCh a && isDigitCh b && isDigitCh c && isDigitCh d then
        some [a, b, '-', c, d]
      else none
  | _ => none

/-- Leftmost clip identifier search (CLIP_ID_PATTERN.search). -/
def clipSearch (l : List Char) : Option (List Char) :=
  match l with
  | [] => none
  | _ :: rest =>
      match clipMatchAt l with
      | some g => some g
      | none => clipSearch rest

/-- Output filename derivation (build_output_filename): the first clip
identifier of the stem, with the output container extension. -/
def build_output_filename (inputName : String) : Option String :=
  match clipSearch (pathStem inputName).data with
  | some g => some (⟨g⟩ ++ "." ++ OUTPUT_FORMAT)
  | none => none

/-- Server context: the filename sanitiser and the two storage
directories. -/
structure Ctx where
  secure : String → String
  uploadDir : String
  transcodedDir : String

/-- An uploaded file as seen by the request handler. -/
structure UploadFile where
  filename : String
deriving DecidableEq

/-- Observable outcome of the upload endpoint: HTTP status, optional error
message, returned job identifier, the jobs map afterwards, the files saved,
and the argument tuples of the background threads spawned. -/
structure UploadOutcome where
  statusCode : Nat
  errorMsg : Option String
  jobId : Option String
  jobs : JobMap
  savedFiles : List String
  threadsSpawned : List (String × String × String)
deriving DecidableEq

/-- Upload endpoint (upload_audio): reject requests without a file, with a
sanitised name not ending in .qta (lowercased), or without a clip
identifier; otherwise save the upload, insert a pending job under a fresh
identifier, spawn one transcode thread and return the identifier. -/
def upload_audio (ctx : Ctx) (newId now : String) (jobs0 : JobMap)
    (file : Option UploadFile) : UploadOutcome :=
  match file with
  | none =>
      { statusCode := 400, errorMsg := some "no file uploaded",
        jobId := none, jobs := jobs0, savedFiles := [],
        threadsSpawned := [] }
  | some f =>
      if f.filename = "" then
        { statusCode := 400, errorMsg := some "no file uploaded",
          jobId := none, jobs := jobs0, savedFiles := [],
          threadsSpawned := [] }
      else
        let safeName := ctx.secure f.filename
        if !endsWithL (lowerL safeName.data) ".qta".data then
          { statusCode := 400,
            errorMsg :=
              some "unsupported input file type; only .qta is accepted",
            jobId := none, jobs := jobs0, savedFiles := [],
            threadsSpawned := [] }
        else
          match build_output_filename safeName with
          | none =>
              { statusCode := 400,
                errorMsg := some
                  "invalid filename; must include clip id in ##-## format (example: guid_02-10.qta)",
                jobId := none, jobs := jobs0, savedFiles := [],
                threadsSpawned := [] }
          | some outputFilename =>
              let inputPath := ctx.uploadDir ++ "/" ++ newId ++ "_" ++ safeName
              let rec0 : Job :=
                { status := "pending"
                  input_filename := safeName
                  output_format := OUTPUT_FORMAT
                  output_filename := outputFilename
                  output_path := none
                  error := none
                  push_error := none
                  created_at := now
                  completed_at := none }
              { statusCode := 200, errorMsg := none,
                jobId := some newId,
                jobs := storeJob jobs0 newId rec0,
                savedFiles := [inputPath],
                threadsSpawned := [(newId, inputPath, outputFilename)] }

/-- Environment outcomes for one background transcode run: whether ffmpeg
was found, whether it succeeded, its error text on failure, the git push
result, and the completion timestamp. -/
structure AudioEnv where
  ffmpegFound : Bool
  ffmpegOk : Bool
  ffmpegErr : String
  pushErr : Option String
  completedAt : String

/-- Background transcode thread (transcode_audio): mark the job processing,
run the encoder, then mark it done (recording the output path) or record
the error. -/
def transcode_audio (ctx : Ctx) (env : AudioEnv) (jobId inputPath
    outputFilename : String) (m : JobMap) : JobMap :=
  let m1 := set_job m jobId (fun j => { j with status := "processing" })
  if !env.ffmpegFound then
    set_job m1 jobId (fun j =>
      { j with status := "error", error := some "ffmpeg not found in PATH" })
  else if env.ffmpegOk then
    set_job m1 jobId (fun j =>
      { j with status := "done",
               output_path := some (ctx.transcodedDir ++ "/" ++ outputFilename),
               output_filename := outputFilename,
               completed_at := some env.completedAt,
               push_error := env.pushErr })
  else
    set_job m1 jobId (fun j =>
      { j with status := "error", error := some env.ffmpegErr })

/-- Observable outcome of the status endpoint. -/
structure StatusResp where
  code : Nat
  status : String
  downloadUrl : Option String
deriving DecidableEq

/-- Status endpoint (job_status): 404 not_found for unknown identifiers,
otherwise the record status, with a download link when done. -/
def job_status (m : JobMap) (jobId : String) : StatusResp :=
  match lookupJob m jobId with
  | none => { code := 404, status := "not_found", downloadUrl := none }
  | some j =>
      { code := 200, status := j.status,
        downloadUrl :=
          if j.status = "done" then some ("/api/download/" ++ jobId)
          else none }

/-- Events on the shared jobs dictionary and its lock, used to state the
lock discipline of the handlers. -/
inductive JEvent where
  | acquire
  | release
  | readJobs
  | writeJobs
  | outside
deriving DecidableEq

/-- Lock discipline check: scanning a trace with the current lock depth,
every access to the jobs dictionary must happen at positive depth and
every release must match an acquire. -/
def lockedOK : Nat → List JEvent → Bool
  | _, [] => true
  | d, e :: rest =>
      match e with
      | .acquire => lockedOK (d + 1) rest
      | .release => decide (0 < d) && lockedOK (d - 1) rest
      | .readJobs => decide (0 < d) && lockedOK d rest
      | .writeJobs => decide (0 < d) && lockedOK d rest
      | .outside => lockedOK d rest

/-- Trace of set_job: acquire, membership read, conditional write,
release. -/
def setJobEvents (present : Bool) : List JEvent :=
  [.acquire, .readJobs] ++ (if present then [.writeJobs] else []) ++
  [.release]

/-- Trace of upload_audio: the validation and file save happen outside the
lock, the insertion happens inside it, then the thread is started. -/
def uploadEvents (accepted : Bool) : List JEvent :=
  if accepted then
    [.outside, .acquire, .writeJobs, .release, .outside]
  else [.outside]

/-- Trace of job_status and of download_output: one locked read. -/
def readEvents : List JEvent := [.acquire, .readJobs, .release]

/-- Trace of the background transcode thread: two set_job calls (the
processing transition and the final done or error transition), with the
encoder and git work outside the lock. -/
def transcodeEvents (present1 present2 : Bool) : List JEvent :=
  setJobEvents present1 ++ [.outside] ++ setJobEvents present2

/-- Well-formedness of one job record: its status is one of the four
lifecycle states, and a done record carries an output path. -/
def GoodJob (j : Job) : Prop :=
  (j.status = "pending" ∨ j.status = "processing" ∨
   j.status = "done" ∨ j.status = "error") ∧
  (j.status = "done" → j.output_path ≠ none)

/-- The job-map invariant of the claims: every stored record is
well-formed. -/
def JobInv (m : JobMap) : Prop :=
  ∀ kv ∈ m, GoodJob kv.2

end EloiseRip.Voice

namespace EloiseRip.Validate

/-!  Embedding of validate_output.py.  HTML parsing is delegated to
BeautifulSoup in the original, so the per-file reference lists arrive here
as data; reference normalisation, error recording, the referenced-media
set, orphan detection and the exit code are translated from the source.
Filesystem existence is an oracle. -/

/-- Hex digit value for percent decoding. -/
def hexVal (c : Char) : Option Nat :=
  if '0' ≤ c && c ≤ '9' then some (c.toNat - 48)
  else if 'a' ≤ c && c ≤ 'f' then some (c.toNat - 87)
  else if 'A' ≤ c && c ≤ 'F' then some (c.toNat - 55)
  else none

/-- Percent decoding (urllib unquote), ASCII fragment: a percent sign with
two hex digits becomes the coded character, anything else passes through. -/
def unquoteL : List Char → List Char
  | [] => []
  | '%' :: a :: b :: rest =>
      match hexVal a, hexVal b with
      | some x, some y => Char.ofNat (16 * x + y) :: unquoteL rest
      | _, _ => '%' :: unquoteL (a :: b :: rest)
  | c :: rest => c :: unquoteL rest

/-- Split a character list on slashes. -/
def splitSlashAux (acc : List Char) : List Char → List (List Char)
  | [] => [acc.reverse]
  | '/' :: rest => acc.reverse :: splitSlashAux [] rest
  | c :: rest => splitSlashAux (c :: acc) rest

/-- Lexical normalisation of the segments of an absolute path (the effect
of Path.resolve on the well-formed paths the validator builds): empty and
dot segments vanish, dot-dot pops the previous segment. -/
def resolveSegs (acc : List (List Char)) : List (List Char) → List (List Char)
  | [] => acc.reverse
  | seg :: rest =>
      if seg = [] || seg = ['.'] then resolveSegs acc rest
      else if seg = ['.', '.'] then resolveSegs acc.tail rest
      else resolveSegs (seg :: acc) rest

/-- Resolved form of an absolute path string. -/
def resolveP (s : String) : String :=
  ⟨'/' :: List.intercalate ['/'] (resolveSegs [] (splitSlashAux [] s.data))⟩

/-- Parent directory of a path (Path.parent for paths with a slash). -/
def parentDir (p : String) : String :=
  ⟨((p.data.reverse.dropWhile (fun c => decide (c ≠ '/'))).tail).reverse⟩

/-- Drop leading slashes (str.lstrip with a slash argument). -/
def lstripSlash (l : List Char) : List Char :=
  l.dropWhile (fun c => decide (c = '/'))

/-- Reference normalisation (normalize_path): strip, drop anchors and
external references, percent-decode, then resolve root-relative, bare
media, and document-relative references against the right base. -/
def normalize_path (href : String) (sourceDir outputDir : String) :
    Option String :=
  let h := stripL href.data
  if h.isEmpty || startsWithL h "#".data || startsWithL h "mailto:".data ||
      startsWithL h "http://".data || startsWithL h "https://".data ||
      startsWithL h "//".data then
    none
  else
    let h2 := unquoteL h
    if startsWithL h2 "/".data then
      some (resolveP (outputDir ++ "/" ++ ⟨lstripSlash h2⟩))
    else if startsWithL h2 "media/".data then
      some (resolveP (outputDir ++ "/" ++ ⟨h2⟩))
    else
      some (resolveP (sourceDir ++ "/" ++ ⟨h2⟩))

/-- Reference lists extracted from one HTML file (the output shape of
extract_references; the parsing itself is done by an external library). -/
structure HtmlRefs where
  links : List String
  images : List String
  videos : List String
  posters : List String
  audio : List String
  css : List String
  external : List String
deriving DecidableEq

/-- Kind tag of a recorded error, standing for the message prefix used by
the source (Broken link, Missing image, Missing video, Missing poster,
Missing audio, Missing CSS). -/
inductive RefKind where
  | link
  | image
  | video
  | poster
  | audio
  | css
deriving DecidableEq

/-- One recorded internal error: the reporting HTML file (relative to the
output directory), the error kind, and the offending reference. -/
structure ErrEntry where
  source : String
  kind : RefKind
  href : String
deriving DecidableEq

/-- Path relative to the output directory (Path.relative_to). -/
def relTo (outputDir p : String) : String :=
  if startsWithL p.data (outputDir.data ++ ['/']) then
    ⟨p.data.drop (outputDir.data.length + 1)⟩
  else p

/-- Error check of one reference: an error is recorded exactly when the
reference normalises to a path and that path does not exist. -/
def refError (fs : String → Bool) (outputDir htmlFile : String)
    (kind : RefKind) (href : String) : Option ErrEntry :=
  match normalize_path href (parentDir htmlFile) outputDir with
  | none => none
  | some target =>
      if fs target then none
      else some { source := relTo outputDir htmlFile, kind := kind,
                  href := href }

/-- Per-file validation pass (the loop body of
validate_internal_references): errors for the six checked categories in
source order, plus the referenced-media contributions of the images,
videos, posters and audio categories (recorded whether or not the target
exists). -/
def checkFile (fs : String → Bool) (outputDir : String)
    (htmlFile : String) (refs : HtmlRefs) : List ErrEntry × List String :=
  let norm := fun r => normalize_path r (parentDir htmlFile) outputDir
  let errs :=
    refs.links.filterMap (refError fs outputDir htmlFile .link) ++
    refs.images.filterMap (refError fs outputDir htmlFile .image) ++
    refs.videos.filterMap (refError fs outputDir htmlFile .video) ++
    refs.posters.filterMap (refError fs outputDir htmlFile .poster) ++
    refs.audio.filterMap (refError fs outputDir htmlFile .audio) ++
    refs.css.filterMap (refError fs outputDir htmlFile .css)
  let media :=
    refs.images.filterMap norm ++ refs.videos.filterMap norm ++
    refs.posters.filterMap norm ++ refs.audio.filterMap norm
  (errs, media)

/-- Whole-output validation (validate_internal_references): concatenation
of the per-file passes. -/
def validate_internal_references (files : List (String × HtmlRefs))
    (fs : String → Bool) (outputDir : String) :
    List ErrEntry × List String :=
  (files.flatMap (fun hf => (checkFile fs outputDir hf.1 hf.2).1),
   files.flatMap (fun hf => (checkFile fs outputDir hf.1 hf.2).2))

/-- Exit code of print_report: 1 exactly when internal or external errors
were recorded; orphaned media never fails the build. -/
def print_report_exit (internalErrs : List ErrEntry)
    (externalErrs : List String) : Nat :=
  if internalErrs.isEmpty && externalErrs.isEmpty then 0 else 1

/-- Orphan report (the four category lists of find_orphaned_media). -/
structure Orphans where
  images : List String
  videos : List String
  audio : List String
  fallbacks : List String
deriving DecidableEq

/-- Suffix replacement (Path.with_suffix). -/
def with_suffix (p : String) (suf : String) : String :=
  ⟨p.data.take (p.data.length - (baseNameL p.data).length) ++
   (splitExtL (baseNameL p.data)).1 ++ suf.data⟩

/-- Categorisation loop of find_orphaned_media over the sorted
unreferenced files: jpg files with a referenced avif sibling become
fallbacks, the rest are filed by the substring of their relative path
(images, then video, then voice); files matching none of the three are
dropped from the report. -/
def categorizeOrphans (outputDir : String) (referenced : List String) :
    List String → Orphans
  | [] => { images := [], videos := [], audio := [], fallbacks := [] }
  | p :: rest =>
      let o := categorizeOrphans outputDir referenced rest
      let rel := relTo outputDir p
      if pathSuffix p = ".jpg" && strMem (with_suffix p ".avif") referenced
      then { o with fallbacks := p :: o.fallbacks }
      else if containsSubL rel.data "images".data then
        { o with images := p :: o.images }
      else if containsSubL rel.data "video".data then
        { o with videos := p :: o.videos }
      else if containsSubL rel.data "voice".data then
        { o with audio := p :: o.audio }
      else o

/-- The media extensions globbed by find_orphaned_media. -/
def MEDIA_EXTS : List String := [".avif", ".jpg", ".mp4", ".m4a"]

/-- The all_media collection of find_orphaned_media: the files under the
media directory (relative paths supplied by the filesystem environment)
with one of the four globbed extensions, as absolute paths. -/
def allMediaOf (outputDir : String) (mediaFiles : List String) :
    List String :=
  (mediaFiles.filter (fun p =>
    startsWithL p.data "media/".data && strMem (pathSuffix p) MEDIA_EXTS)
  ).map (fun p => outputDir ++ "/" ++ p)

/-- Orphan detection (find_orphaned_media): the media files in no
referenced-media entry, sorted and categorised. -/
def find_orphaned_media (outputDir : String) (mediaFiles : List String)
    (referenced : List String) : Orphans :=
  let unreferenced :=
    (allMediaOf outputDir mediaFiles).filter (fun p => !strMem p referenced)
  categorizeOrphans outputDir referenced
    (ordSort (fun a b => decide (a ≤ b)) unreferenced)

/-- The files counted as orphaned by the report (fallbacks excluded). -/
def orphanedAll (o : Orphans) : List String :=
  o.images ++ o.videos ++ o.audio

/-- Internality of a reference in the words of the claim: after stripping,
non-empty and not starting with an anchor, mailto, http, https, or
scheme-relative marker.  This is exactly the skip guard of
normalize_path. -/
def isInternalRef (href : String) : Bool :=
  let h := stripL href.data
  !(h.isEmpty || startsWithL h "#".data || startsWithL h "mailto:".data ||
    startsWithL h "http://".data || startsWithL h "https://".data ||
    startsWithL h "//".data)

/-- The extracted reference list of one checked category. -/
def refsOfKind (k : RefKind) (refs : HtmlRefs) : List String :=
  match k with
  | .link => refs.links
  | .image => refs.images
  | .video => refs.videos
  | .poster => refs.posters
  | .audio => refs.audio
  | .css => refs.css

end EloiseRip.Validate

namespace EloiseRip.VideoEmbed

/-!  Embedding of pelican-plugins/video_embed/video_embed.py.

The plugin substitutes VIDEO_PATTERN, the Python regex

  (?:(?P一prefix一<p[^>]*>)\s*)?\[\[video:(?P一name一[a-zA-Z0-9._-]+)]]\s*(?(prefix)</p>)

(group-name delimiters shown as 一 here), compiled with IGNORECASE and
DOTALL, over the content string, replacing each leftmost non-overlapping
match by build_video_html of the captured name.

The matcher below implements the backtracking semantics of this concrete
pattern at one position.  The pattern is deterministic once the start
position is fixed: the character class of the name excludes the closing
bracket, the whitespace runs are followed by non-whitespace required
characters, and the wrapper alternative starts with a different character
than the bare alternative, so every greedy run is forced to its maximal
length and the only branch point is trying the optional wrapper group
first and falling back to the bare token at the same position, which the
definition of matchAt does explicitly.  Whitespace is the ASCII fragment
of the regex whitespace class (the theorem inputs are ASCII). -/

/-- Name character class of the pattern: ASCII letters, digits, dot,
underscore, hyphen. -/
def isNameCh (c : Char) : Bool :=
  c.isAlpha || c.isDigit || decide (c = '.') || decide (c = '_') ||
  decide (c = '-')

/-- Single-character match under IGNORECASE: the pattern characters below
are lowercase, and a lowercase letter also matches its uppercase form. -/
def chMatch (p c : Char) : Bool :=
  decide (c = p) || (p.isLower && decide (c = p.toUpper))

/-- Literal characters of the wrapper opening: the less-than sign and p. -/
def litPfx : List Char := ['<', 'p']

/-- Literal characters opening the bare token. -/
def litCore : List Char := ['[', '[', 'v', 'i', 'd', 'e', 'o', ':']

/-- Literal characters closing the bare token. -/
def litClose : List Char := [']', ']']

/-- Literal characters of the closing paragraph tag. -/
def litPClose : List Char := ['<', '/', 'p', '>']

/-- Match a literal (case-insensitively), returning the rest of the
input. -/
def matchLit : List Char → List Char → Option (List Char)
  | [], cs => some cs
  | _ :: _, [] => none
  | p :: ps, c :: cs => if chMatch p c then matchLit ps cs else none

/-- Match the optional wrapper opening: a p tag opened by a less-than
sign, any run of characters other than greater-than, then greater-than. -/
def matchPfx (cs : List Char) : Option (List Char) :=
  match matchLit litPfx cs with
  | none => none
  | some r1 =>
      match r1.dropWhile (fun c => decide (c ≠ '>')) with
      | c :: r2 => if c = '>' then some r2 else none
      | [] => none

/-- Match the bare token: the opening literal, a nonempty greedy run of
name characters, the closing literal.  Returns the captured name and the
rest. -/
def matchCore (cs : List Char) : Option (List Char × List Char) :=
  match matchLit litCore cs with
  | none => none
  | some r1 =>
      match r1.takeWhile isNameCh with
      | [] => none
      | name =>
          match matchLit litClose (r1.dropWhile isNameCh) with
          | none => none
          | some r2 => some (name, r2)

/-- Match without the wrapper group: the bare token followed by the greedy
trailing whitespace run (the conditional group is empty here). -/
def matchNoPfx (cs : List Char) : Option (List Char × List Char) :=
  match matchCore cs with
  | none => none
  | some (name, r3) => some (name, r3.dropWhile isSpaceCh)

/-- Match the whole pattern at one position: try the wrapper alternative
(opening tag, whitespace, token, whitespace, closing tag) first, falling
back to the bare alternative at the same position. -/
def matchAt (cs : List Char) : Option (List Char × List Char) :=
  match matchPfx cs with
  | some r1 =>
      match matchCore (r1.dropWhile isSpaceCh) with
      | some (name, r3) =>
          match matchLit litPClose (r3.dropWhile isSpaceCh) with
          | some r5 => some (name, r5)
          | none => matchNoPfx cs
      | none => matchNoPfx cs
  | none => matchNoPfx cs

/-- Video figure markup (build_video_html).  As in the source, the siteurl
and relative arguments are unused and the asset base is always the
root-relative media path. -/
def build_video_html (name siteurl : String) (relative : Bool)
    (css_class : String) : String :=
  "<figure class=\"" ++ css_class ++ "\">\n" ++
  "  <video controls preload=\"metadata\" poster=\"/media/video/" ++ name ++
  ".jpg\">\n" ++
  "    <source src=\"/media/video/" ++ name ++ ".mp4\" type=\"video/mp4\" />\n" ++
  "    Your browser does not support the video tag.\n" ++
  "  </video>\n" ++
  "</figure>"

/-- List-level form of the replacement markup, as substituted by the
pattern replacement callback (which passes an empty siteurl and
relative true, both unused). -/
def videoHtmlL (css name : List Char) : List Char :=
  (build_video_html ⟨name⟩ "" true ⟨css⟩).data

/-- Fuelled scanner of re.sub: at each position try the pattern; on a
match substitute the markup and continue after the match, otherwise keep
the character and move one position.  Matches of this pattern always
consume at least one character, so fuel equal to the input length
suffices. -/
def substF (css : List Char) : Nat → List Char → List Char
  | 0, cs => cs
  | fuel + 1, cs =>
      match matchAt cs with
      | some (name, rest) => videoHtmlL css name ++ substF css fuel rest
      | none =>
          match cs with
          | [] => []
          | c :: cs' => c :: substF css fuel cs'

/-- Marker substitution over a character list (VIDEO_PATTERN.sub with the
replacement callback). -/
def replaceList (css cs : List Char) : List Char :=
  substF css cs.length cs

/-- Marker substitution over content text (the function named
underscore-replace_markers_in_text in the source, applied by the
content-object-init and generators-finalized hooks). -/
def replaceMarkersInText (text css_class : String) : String :=
  ⟨replaceList css_class.data text.data⟩

/-- Default figure class (the VIDEO_EMBED_CLASS settings default). -/
def defaultCss : String := "embedded-video"

/-- The literal bare token for a given name, as written in content. -/
def videoTok (name : List Char) : List Char :=
  litCore ++ name ++ litClose

/-- Markup chunk before the css class. -/
def htmlA : List Char := "<figure class=\"".data

/-- Markup chunk between the css class and the first name occurrence. -/
def htmlB : List Char :=
  "\">\n".data ++
  "  <video controls preload=\"metadata\" poster=\"/media/video/".data

/-- Markup chunk between the two name occurrences. -/
def htmlC : List Char :=
  ".jpg\">\n".data ++ "    <source src=\"/media/video/".data

/-- Markup chunk after the second name occurrence. -/
def htmlD : List Char :=
  ".mp4\" type=\"video/mp4\" />\n".data ++
  "    Your browser does not support the video tag.\n".data ++
  "  </video>\n".data ++ "</figure>".data

end EloiseRip.VideoEmbed

/-! ## Theorems -/

namespace EloiseRip

/-- Membership through ordered insertion. -/
theorem mem_ordInsert {α : Type} (le : α → α → Bool) (a x : α) :
    ∀ l : List α, x ∈ ordInsert le a l ↔ x = a ∨ x ∈ l := by
  intro l
  induction l with
  | nil => simp [ordInsert]
  | cons b l ih =>
    by_cases h : le a b = true
    · simp [ordInsert, h]
    · simp only [ordInsert, if_neg h, List.mem_cons, ih]
      tauto

/-- Membership through insertion sort. -/
theorem mem_ordSort {α : Type} (le : α → α → Bool) (x : α) :
    ∀ l : List α, x ∈ ordSort le l ↔ x ∈ l := by
  intro l
  induction l with
  | nil => simp [ordSort]
  | cons a l ih =>
    simp [ordSort, mem_ordInsert, ih]

/-- Ordered insertion preserves sortedness, for a total transitive
comparison. -/
theorem pairwise_ordInsert {α : Type} (le : α → α → Bool)
    (htot : ∀ a b, le a b = true ∨ le b a = true)
    (htrans : ∀ a b c, le a b = true → le b c = true → le a c = true)
    (a : α) :
    ∀ l : List α, List.Pairwise (fun x y => le x y = true) l →
      List.Pairwise (fun x y => le x y = true) (ordInsert le a l) := by
  intro l
  induction l with
  | nil => intro _; simp [ordInsert]
  | cons b l ih =>
    intro hl
    obtain ⟨hb, hl'⟩ := List.pairwise_cons.mp hl
    by_cases h : le a b = true
    · rw [ordInsert, if_pos h]
      refine List.Pairwise.cons ?_ hl
      intro x hx
      rcases List.mem_cons.mp hx with rfl | hx
      · exact h
      · exact htrans a b x h (hb x hx)
    · rw [ordInsert, if_neg h]
      refine List.Pairwise.cons ?_ (ih hl')
      intro x hx
      rcases (mem_ordInsert le a x l).mp hx with rfl | hx
      · rcases htot x b with hx | hx
        · exact absurd hx h
        · exact hx
      · exact hb x hx

/-- Insertion sort sorts, for a total transitive comparison. -/
theorem pairwise_ordSort {α : Type} (le : α → α → Bool)
    (htot : ∀ a b, le a b = true ∨ le b a = true)
    (htrans : ∀ a b c, le a b = true → le b c = true → le a c = true) :
    ∀ l : List α,
      List.Pairwise (fun x y => le x y = true) (ordSort le l) := by
  intro l
  induction l with
  | nil => simp [ordSort]
  | cons a l ih => exact pairwise_ordInsert le htot htrans a _ ih

end EloiseRip

namespace EloiseRip.Transcode

/-- An image-encode step with force unset and the output already present
changes nothing. -/
theorem imageStep_skip (cfg : Cfg) (env : MediaEnv) (st : RunResult)
    (e : String × List String) (hf : cfg.force = false)
    (h : st.fs e.1 = true) : imageStep cfg env st e = st := by
  simp [imageStep, hf, h]

/-- Through the encode loop, with force unset, a command can only be
emitted by an entry carrying it, and an output that already exists keeps
existing and its entry is skipped. -/
theorem imageLoop_skip (cfg : Cfg) (env : MediaEnv)
    (hf : cfg.force = false) :
    ∀ (es : List (String × List String)) (st : RunResult) (out : String)
      (cl : List String),
    st.fs out = true → cl ∉ st.cmds →
    (∀ e ∈ es, e.2 = cl → e.1 = out) →
    cl ∉ (es.foldl (imageStep cfg env) st).cmds ∧
    (es.foldl (imageStep cfg env) st).fs out = true := by
  intro es
  induction es with
  | nil => intro st out cl h1 h2 _; exact ⟨h2, h1⟩
  | cons e es ih =>
    intro st out cl h1 h2 h3
    simp only [List.foldl_cons]
    by_cases hskip : st.fs e.1 = true
    · rw [imageStep_skip cfg env st e hf hskip]
      exact ih st out cl h1 h2 (fun x hx => h3 x (List.mem_cons_of_mem _ hx))
    · have hrun : imageStep cfg env st e = runStep env st e.2 e.1 := by
        simp [imageStep, hf, hskip]
      rw [hrun]
      have hne : e.1 ≠ out := fun heq => hskip (by rw [heq]; exact h1)
      have hclne : e.2 ≠ cl :=
        fun hceq => hne (h3 e (List.mem_cons_self _ _) hceq)
      have hne' : out ≠ e.1 := fun h => hne h.symm
      apply ih
      · show (if env.ffmpegOk e.2 then setFile st.fs e.1 else st.fs) out = true
        by_cases hok : env.ffmpegOk e.2 = true
        · simp [hok, setFile, hne', h1]
        · simp [hok, h1]
      · intro hmem
        rcases List.mem_append.mp hmem with h | h
        · exact h2 h
        · exact hclne (List.mem_singleton.mp h).symm
      · exact fun x hx => h3 x (List.mem_cons_of_mem _ hx)

/-- The four image-encode commands are pairwise distinct (they differ in
their codec arguments). -/
theorem imageCmds_distinct (cfg : Cfg) (f i : String) :
    avifCmd cfg f i ≠ webpCmd cfg f i ∧ avifCmd cfg f i ≠ jpgCmd cfg f i ∧
    avifCmd cfg f i ≠ pngCmd cfg f i ∧ webpCmd cfg f i ≠ jpgCmd cfg f i ∧
    webpCmd cfg f i ≠ pngCmd cfg f i ∧ jpgCmd cfg f i ≠ pngCmd cfg f i := by
  refine ⟨?_, ?_, ?_, ?_, ?_, ?_⟩ <;>
    · intro h
      simp [avifCmd, webpCmd, jpgCmd, pngCmd] at h

/-- Claim C1: with force unset, a video source whose three derived outputs
(mp4, webm, poster jpg) all exist triggers no encoder command and leaves
the file state untouched, and an image source skips each individual
derived output that already exists: its encoder command is not invoked and
the output file remains present. -/
theorem claim_c1_skip_existing (cfg : Cfg) (env : MediaEnv)
    (srcFile : String) (hf : cfg.force = false) :
    (env.hasFile (mp4Path cfg srcFile) = true →
     env.hasFile (webmPath cfg srcFile) = true →
     env.hasFile (posterPath cfg srcFile) = true →
     transcode_video cfg env srcFile =
       { cmds := [], fs := env.hasFile }) ∧
    (∀ ext : String, ext ∈ [".avif", ".webp", ".jpg", ".png"] →
     env.hasFile (imgPath cfg srcFile ext) = true →
     (cmdOfExt cfg srcFile (prepare_image_source env srcFile).1 ext) ∉
       (transcode_image cfg env srcFile).cmds ∧
     (transcode_image cfg env srcFile).fs (imgPath cfg srcFile ext) =
       true) := by
  constructor
  · intro h1 h2 h3
    simp [transcode_video, hf, h1, h2, h3]
  · intro ext hext hhas
    obtain ⟨d1, d2, d3, d4, d5, d6⟩ := imageCmds_distinct cfg srcFile
      (prepare_image_source env srcFile).1
    unfold transcode_image
    by_cases hp : (prepare_image_source env srcFile).2 = true
    · simp only [hp, Bool.not_true, Bool.false_eq_true, if_false]
      apply imageLoop_skip cfg env hf _ _ _ _ hhas (List.not_mem_nil _)
      intro e he hcmd
      have hmem : e ∈ ([(imgPath cfg srcFile ".avif",
            avifCmd cfg srcFile (prepare_image_source env srcFile).1),
          (imgPath cfg srcFile ".webp",
            webpCmd cfg srcFile (prepare_image_source env srcFile).1),
          (imgPath cfg srcFile ".jpg",
            jpgCmd cfg srcFile (prepare_image_source env srcFile).1),
          (imgPath cfg srcFile ".png",
            pngCmd cfg srcFile (prepare_image_source env srcFile).1)] :
          List (String × List String)) := by
        simp only [imageEncodes, List.mem_append] at he
        rcases he with he | he
        · simp only [List.mem_cons] at he ⊢
          tauto
        · split at he
          · simp only [List.mem_singleton] at he
            simp [he]
          · exact absurd he (List.not_mem_nil _)
      clear he
      fin_cases hext <;>
        simp only [List.mem_cons, List.not_mem_nil, or_false] at hmem <;>
        rcases hmem with rfl | rfl | rfl | rfl <;>
        simp only [cmdOfExt, if_pos, if_neg, reduceIte] at hcmd <;>
        first
          | rfl
          | exact absurd hcmd.symm d1
          | exact absurd hcmd.symm d2
          | exact absurd hcmd.symm d3
          | exact absurd hcmd.symm d4
          | exact absurd hcmd.symm d5
          | exact absurd hcmd.symm d6
          | exact absurd hcmd d1
          | exact absurd hcmd d2
          | exact absurd hcmd d3
          | exact absurd hcmd d4
          | exact absurd hcmd d5
          | exact absurd hcmd d6
    · simp only [Bool.not_eq_true] at hp
      simp [hp, hhas]

/-- Witness for claim C1 at a concrete configuration: with every output
present and force unset, the video pipeline runs no command, and the image
pipeline never invokes the avif encoder. -/
theorem claim_c1_skip_existing_witness :
    transcode_video
      { src := "media-source", dest := "content/media", maxDimension := 1080,
        crfMp4 := 28, crfWebm := 34, posterTime := "0.5", force := false,
        quiet := false }
      { hasFile := fun _ => true, ffmpegOk := fun _ => true,
        probeAlpha := fun _ => false, pillowOk := true,
        heicOk := fun _ => true, heicPng := fun s => s }
      "media-source/clip.mp4" =
      { cmds := [], fs := fun _ => true } ∧
    cmdOfExt
      { src := "media-source", dest := "content/media", maxDimension := 1080,
        crfMp4 := 28, crfWebm := 34, posterTime := "0.5", force := false,
        quiet := false }
      "media-source/pic.jpg" "media-source/pic.jpg" ".avif" ∉
      (transcode_image
        { src := "media-source", dest := "content/media",
          maxDimension := 1080, crfMp4 := 28, crfWebm := 34,
          posterTime := "0.5", force := false, quiet := false }
        { hasFile := fun _ => true, ffmpegOk := fun _ => true,
          probeAlpha := fun _ => false, pillowOk := true,
          heicOk := fun _ => true, heicPng := fun s => s }
        "media-source/pic.jpg").cmds :=
  ⟨(claim_c1_skip_existing _ _ _ rfl).1 rfl rfl rfl,
   ((claim_c1_skip_existing _ _ "media-source/pic.jpg" rfl).2 ".avif"
     (by decide) rfl).1⟩

/-- The video and image extension sets are disjoint. -/
theorem ext_sets_disjoint :
    ∀ s, strMem s VIDEO_EXT = true → strMem s IMAGE_EXT = true → False := by
  intro s h1 h2
  simp only [strMem, VIDEO_EXT, List.any_eq_true, decide_eq_true_eq] at h1
  obtain ⟨t, ht, rfl⟩ := h1
  fin_cases ht <;> exact absurd h2 (by decide)

/-- Claim C7: discover_sources returns exactly the regular files of the
source directory with an allowed lowercased extension, in sorted order,
and transcode_file dispatches video extensions to the video pipeline and
image extensions to the image pipeline, the two sets being disjoint. -/
theorem claim_c7_discovery_dispatch :
    (∀ (denv : DirEnv) (p : String),
      p ∈ discover_sources denv ↔
        p ∈ denv.entries ∧ denv.isFile p = true ∧
        strMem (strLower (pathSuffix p)) ALLOWED_EXT = true) ∧
    (∀ denv : DirEnv,
      List.Pairwise (fun a b : String => a ≤ b) (discover_sources denv)) ∧
    (∀ (cfg : Cfg) (env : MediaEnv) (p : String),
      is_video_file p = true →
      transcode_file cfg env p = transcode_video cfg env p) ∧
    (∀ (cfg : Cfg) (env : MediaEnv) (p : String),
      is_image_file p = true →
      transcode_file cfg env p = transcode_image cfg env p) ∧
    (∀ s, ¬(strMem s VIDEO_EXT = true ∧ strMem s IMAGE_EXT = true)) := by
  refine ⟨?_, ?_, ?_, ?_, ?_⟩
  · intro denv p
    simp [discover_sources, List.mem_filter, mem_ordSort]
  · intro denv
    have hs : List.Pairwise
        (fun a b : String => (fun x y : String => decide (x ≤ y)) a b = true)
        (ordSort (fun x y : String => decide (x ≤ y)) denv.entries) :=
      pairwise_ordSort _
        (fun a b => by
          simp only [decide_eq_true_eq]
          exact le_total a b)
        (fun a b c hab hbc => by
          simp only [decide_eq_true_eq] at *
          exact le_trans hab hbc)
        denv.entries
    have hp : List.Pairwise
        (fun a b : String => (fun x y : String => decide (x ≤ y)) a b = true)
        (discover_sources denv) := by
      unfold discover_sources
      exact List.Pairwise.sublist (List.filter_sublist _) hs
    exact hp.imp (fun h => of_decide_eq_true h)
  · intro cfg env p h
    simp [transcode_file, h]
  · intro cfg env p h
    have hv : is_video_file p = false := by
      by_contra hv
      rw [Bool.not_eq_false] at hv
      exact ext_sets_disjoint _ hv h
    simp [transcode_file, hv, h]
  · intro s h
    exact ext_sets_disjoint s h.1 h.2

/-- Witness for claim C7 at concrete inputs: a video extension goes to the
video pipeline and an image extension to the image pipeline. -/
theorem claim_c7_discovery_dispatch_witness :
    transcode_file
      { src := "media-source", dest := "content/media", maxDimension := 1080,
        crfMp4 := 28, crfWebm := 34, posterTime := "0.5", force := false,
        quiet := false }
      { hasFile := fun _ => false, ffmpegOk := fun _ => true,
        probeAlpha := fun _ => false, pillowOk := true,
        heicOk := fun _ => true, heicPng := fun s => s }
      "media-source/clip.MOV" =
    transcode_video
      { src := "media-source", dest := "content/media", maxDimension := 1080,
        crfMp4 := 28, crfWebm := 34, posterTime := "0.5", force := false,
        quiet := false }
      { hasFile := fun _ => false, ffmpegOk := fun _ => true,
        probeAlpha := fun _ => false, pillowOk := true,
        heicOk := fun _ => true, heicPng := fun s => s }
      "media-source/clip.MOV" ∧
    transcode_file
      { src := "media-source", dest := "content/media", maxDimension := 1080,
        crfMp4 := 28, crfWebm := 34, posterTime := "0.5", force := false,
        quiet := false }
      { hasFile := fun _ => false, ffmpegOk := fun _ => true,
        probeAlpha := fun _ => false, pillowOk := true,
        heicOk := fun _ => true, heicPng := fun s => s }
      "media-source/pic.HEIC" =
    transcode_image
      { src := "media-source", dest := "content/media", maxDimension := 1080,
        crfMp4 := 28, crfWebm := 34, posterTime := "0.5", force := false,
        quiet := false }
      { hasFile := fun _ => false, ffmpegOk := fun _ => true,
        probeAlpha := fun _ => false, pillowOk := true,
        heicOk := fun _ => true, heicPng := fun s => s }
      "media-source/pic.HEIC" :=
  ⟨claim_c7_discovery_dispatch.2.2.1 _ _ "media-source/clip.MOV" (by decide),
   claim_c7_discovery_dispatch.2.2.2.1 _ _ "media-source/pic.HEIC"
     (by decide)⟩

end EloiseRip.Transcode

namespace EloiseRip.Voice

/-- Storing under a key makes that key look up the stored record. -/
theorem lookupJob_store_self (m : JobMap) (k : String) (v : Job) :
    lookupJob (storeJob m k v) k = some v := by
  induction m with
  | nil => simp [storeJob, lookupJob]
  | cons kv rest ih =>
    by_cases h : kv.1 = k
    · simp [storeJob, lookupJob, h]
    · simp [storeJob, lookupJob, h, ih]

/-- Every member of a store result is the stored pair or an original
member. -/
theorem mem_storeJob {m : JobMap} {k : String} {v : Job} {kv : String × Job}
    (h : kv ∈ storeJob m k v) : kv = (k, v) ∨ kv ∈ m := by
  induction m with
  | nil => simp [storeJob] at h; simp [h]
  | cons kv' rest ih =>
    by_cases hk : kv'.1 = k
    · rw [storeJob, if_pos hk] at h
      rcases List.mem_cons.mp h with h | h
      · exact Or.inl h
      · exact Or.inr (List.mem_cons_of_mem _ h)
    · rw [storeJob, if_neg hk] at h
      rcases List.mem_cons.mp h with h | h
      · exact Or.inr (h ▸ List.mem_cons_self _ _)
      · rcases ih h with h | h
        · exact Or.inl h
        · exact Or.inr (List.mem_cons_of_mem _ h)

/-- A guarded update whose transformer always yields a well-formed record
preserves the job-map invariant. -/
theorem set_job_inv {m : JobMap} {k : String} {f : Job → Job}
    (hf : ∀ j, GoodJob (f j)) (hm : JobInv m) : JobInv (set_job m k f) := by
  unfold set_job
  cases h : lookupJob m k with
  | none => exact hm
  | some j =>
    intro kv hkv
    rcases mem_storeJob hkv with rfl | hkv
    · exact hf j
    · exact hm kv hkv

/-- Claim C3: an accepted upload returns the generated identifier and
stores a pending record under it; the status endpoint reports the stored
record status with code 200 and answers 404 not_found for identifiers
absent from the map. -/
theorem claim_c3_job_lifecycle :
    (∀ (ctx : Ctx) (newId now : String) (jobs0 : JobMap)
       (file : Option UploadFile),
      (upload_audio ctx newId now jobs0 file).statusCode ≠ 400 →
      (upload_audio ctx newId now jobs0 file).jobId = some newId ∧
      (∃ j, lookupJob (upload_audio ctx newId now jobs0 file).jobs newId =
              some j ∧ j.status = "pending") ∧
      job_status (upload_audio ctx newId now jobs0 file).jobs newId =
        { code := 200, status := "pending", downloadUrl := none }) ∧
    (∀ (m : JobMap) (jid : String) (j : Job),
      lookupJob m jid = some j →
      (job_status m jid).code = 200 ∧ (job_status m jid).status = j.status) ∧
    (∀ (m : JobMap) (jid : String),
      lookupJob m jid = none →
      job_status m jid =
        { code := 404, status := "not_found", downloadUrl := none }) := by
  refine ⟨?_, ?_, ?_⟩
  · intro ctx newId now jobs0 file h
    rcases file with _ | f
    · simp [upload_audio] at h
    · by_cases h1 : f.filename = ""
      · simp [upload_audio, h1] at h
      · by_cases h2 :
          endsWithL (lowerL (ctx.secure f.filename).data) ".qta".data = true
        · cases h3 : build_output_filename (ctx.secure f.filename) with
          | none => simp [upload_audio, h1, h2, h3] at h
          | some outName =>
            refine ⟨?_, ?_, ?_⟩ <;>
              simp [upload_audio, h1, h2, h3, lookupJob_store_self,
                job_status]
        · rw [Bool.not_eq_true] at h2
          simp [upload_audio, h1, h2] at h
  · intro m jid j h
    simp [job_status, h]
  · intro m jid h
    simp [job_status, h]

/-- Witness for claim C3 at a concrete accepted upload. -/
theorem claim_c3_job_lifecycle_witness :
    job_status
      (upload_audio
        { secure := fun s => s, uploadDir := "media-source",
          transcodedDir := "content/media/voice" }
        "id-1" "2026-01-01T00:00:00" [] (some { filename := "a_01-02.qta" })
      ).jobs "id-1" =
      { code := 200, status := "pending", downloadUrl := none } ∧
    job_status [] "missing" =
      { code := 404, status := "not_found", downloadUrl := none } :=
  ⟨(claim_c3_job_lifecycle.1
      { secure := fun s => s, uploadDir := "media-source",
        transcodedDir := "content/media/voice" }
      "id-1" "2026-01-01T00:00:00" [] (some { filename := "a_01-02.qta" })
      (by decide)).2.2,
   claim_c3_job_lifecycle.2.2 [] "missing" rfl⟩

end EloiseRip.Voice

namespace EloiseRip.Voice

/-- Counterexample to claim C4 as stated: with an upload named
a_01-02.QTA (uppercase container extension, sanitised to itself), the
sanitised filename does not end with the literal lowercase .qta, so the
claim requires a 400 rejection with no side effects; the handler instead
lowercases before the extension test and accepts the upload, saving the
file and spawning a thread. -/
theorem claim_c4_counterexample :
    ¬ (((upload_audio
          { secure := fun s => s, uploadDir := "media-source",
            transcodedDir := "content/media/voice" }
          "id-1" "t0" [] (some { filename := "a_01-02.QTA" })).statusCode
            = 400 ∧
        (upload_audio
          { secure := fun s => s, uploadDir := "media-source",
            transcodedDir := "content/media/voice" }
          "id-1" "t0" [] (some { filename := "a_01-02.QTA" })).savedFiles
            = [] ∧
        (upload_audio
          { secure := fun s => s, uploadDir := "media-source",
            transcodedDir := "content/media/voice" }
          "id-1" "t0" [] (some { filename := "a_01-02.QTA" })).jobs = [] ∧
        (upload_audio
          { secure := fun s => s, uploadDir := "media-source",
            transcodedDir := "content/media/voice" }
          "id-1" "t0" [] (some { filename := "a_01-02.QTA" })).threadsSpawned
            = []) ↔
       ((some { filename := "a_01-02.QTA" } : Option UploadFile) = none ∨
        ({ filename := "a_01-02.QTA" } : UploadFile).filename = "" ∨
        endsWithL ((fun s => s) "a_01-02.QTA").data ".qta".data = false ∨
        build_output_filename ((fun s => s) "a_01-02.QTA") = none)) := by
  decide

/-- Claim C4 as amended: the upload endpoint rejects with 400 and produces
no side effect (no saved file, unchanged job map, no thread) exactly when
the request carries no file or an empty filename, or the sanitised
filename does not end with .qta after lowercasing, or its stem contains no
two-digit-dash-two-digit clip identifier; otherwise it saves exactly one
file and spawns exactly one background transcode thread. -/
theorem claim_c4_reject_iff :
    ∀ (ctx : Ctx) (newId now : String) (jobs0 : JobMap)
      (file : Option UploadFile),
    (((upload_audio ctx newId now jobs0 file).statusCode = 400 ∧
      (upload_audio ctx newId now jobs0 file).savedFiles = [] ∧
      (upload_audio ctx newId now jobs0 file).jobs = jobs0 ∧
      (upload_audio ctx newId now jobs0 file).threadsSpawned = []) ↔
     (file = none ∨
      ∃ f, file = some f ∧
        (f.filename = "" ∨
         endsWithL (lowerL (ctx.secure f.filename).data) ".qta".data =
           false ∨
         build_output_filename (ctx.secure f.filename) = none))) ∧
    ((¬(file = none ∨
        ∃ f, file = some f ∧
          (f.filename = "" ∨
           endsWithL (lowerL (ctx.secure f.filename).data) ".qta".data =
             false ∨
           build_output_filename (ctx.secure f.filename) = none))) →
      (upload_audio ctx newId now jobs0 file).statusCode = 200 ∧
      (upload_audio ctx newId now jobs0 file).savedFiles.length = 1 ∧
      (upload_audio ctx newId now jobs0 file).threadsSpawned.length = 1) := by
  intro ctx newId now jobs0 file
  rcases file with _ | f
  · constructor
    · simp [upload_audio]
    · intro h
      exact absurd (Or.inl rfl) h
  · by_cases h1 : f.filename = ""
    · constructor
      · simp [upload_audio, h1]
      · intro h
        exact absurd (Or.inr ⟨f, rfl, Or.inl h1⟩) h
    · by_cases h2 :
        endsWithL (lowerL (ctx.secure f.filename).data) ".qta".data = true
      · cases h3 : build_output_filename (ctx.secure f.filename) with
        | none =>
          constructor
          · simp [upload_audio, h1, h2, h3]
          · intro h
            exact absurd (Or.inr ⟨f, rfl, Or.inr (Or.inr h3)⟩) h
        | some outName =>
          constructor
          · simp only [upload_audio, h1, h2, h3]
            constructor
            · rintro ⟨h400, -⟩
              simp at h400
            · rintro (h | ⟨f', hf', h'⟩)
              · exact absurd h (by simp)
              · obtain rfl : f' = f := by
                  injection hf' with h''; exact h''.symm
                rcases h' with h' | h' | h'
                · exact absurd h' h1
                · rw [h2] at h'; exact absurd h' (by simp)
                · rw [h3] at h'; exact absurd h' (by simp)
          · intro _
            simp [upload_audio, h1, h2, h3]
      · rw [Bool.not_eq_true] at h2
        constructor
        · simp [upload_audio, h1, h2]
        · intro h
          exact absurd (Or.inr ⟨f, rfl, Or.inr (Or.inl h2)⟩) h

/-- Witness for the amended claim C4: a concrete valid upload is accepted
with one saved file and one spawned thread, and a concrete empty request
is rejected with no side effects. -/
theorem claim_c4_reject_iff_witness :
    (upload_audio
      { secure := fun s => s, uploadDir := "media-source",
        transcodedDir := "content/media/voice" }
      "id-1" "t0" [] (some { filename := "a_01-02.qta" })).statusCode =
        200 ∧
    (upload_audio
      { secure := fun s => s, uploadDir := "media-source",
        transcodedDir := "content/media/voice" }
      "id-1" "t0" [] none).statusCode = 400 :=
  ⟨((claim_c4_reject_iff
      { secure := fun s => s, uploadDir := "media-source",
        transcodedDir := "content/media/voice" }
      "id-1" "t0" [] (some { filename := "a_01-02.qta" })).2
      (by
        rintro (h | ⟨f, hf, h'⟩)
        · exact Option.noConfusion h
        · injection hf with hf'
          subst hf'
          rcases h' with h' | h' | h' <;> exact absurd h' (by decide))).1,
   ((claim_c4_reject_iff
      { secure := fun s => s, uploadDir := "media-source",
        transcodedDir := "content/media/voice" }
      "id-1" "t0" [] none).1.mpr (Or.inl rfl)).1⟩

end EloiseRip.Voice

namespace EloiseRip.Voice

/-- Claim C8: in every handler and in the background thread, every read
and write of the shared jobs dictionary happens while the single lock is
held: each possible trace of the upload handler, of a set_job call, of
the status and download readers, and of the background transcode thread
passes the lock-discipline check from depth zero. -/
theorem claim_c8_lock_discipline :
    ∀ accepted present present1 present2 : Bool,
    lockedOK 0 (uploadEvents accepted) = true ∧
    lockedOK 0 (setJobEvents present) = true ∧
    lockedOK 0 readEvents = true ∧
    lockedOK 0 (transcodeEvents present1 present2) = true := by
  intro accepted present present1 present2
  cases accepted <;> cases present <;> cases present1 <;> cases present2 <;>
    exact ⟨by decide, by decide, by decide, by decide⟩

/-- Claim C9: the job-map invariant (status is one of pending, processing,
done, error; done records carry an output path) is preserved by the upload
insertion and by every transition of the background transcode thread, and
set_job on an identifier absent from the map leaves the map completely
unchanged. -/
theorem claim_c9_invariant :
    (∀ (m : JobMap) (k : String) (f : Job → Job),
      lookupJob m k = none → set_job m k f = m) ∧
    (∀ (ctx : Ctx) (newId now : String) (jobs0 : JobMap)
       (file : Option UploadFile),
      JobInv jobs0 → JobInv (upload_audio ctx newId now jobs0 file).jobs) ∧
    (∀ (ctx : Ctx) (env : AudioEnv) (jid ip ofn : String) (m : JobMap),
      JobInv m → JobInv (transcode_audio ctx env jid ip ofn m)) := by
  refine ⟨?_, ?_, ?_⟩
  · intro m k f h
    simp [set_job, h]
  · intro ctx newId now jobs0 file hm
    rcases file with _ | f
    · exact hm
    · by_cases h1 : f.filename = ""
      · simp only [upload_audio, h1, if_pos rfl]
        exact hm
      · by_cases h2 :
          endsWithL (lowerL (ctx.secure f.filename).data) ".qta".data = true
        · cases h3 : build_output_filename (ctx.secure f.filename) with
          | none =>
            simp only [upload_audio, h1, h2, h3]
            simpa using hm
          | some outName =>
            simp only [upload_audio, h1, h2, h3, Bool.not_true,
              Bool.false_eq_true, if_false, ite_false, ite_true, if_true]
            intro kv hkv
            rcases mem_storeJob hkv with rfl | hkv
            · exact ⟨Or.inl rfl, by simp⟩
            · exact hm kv hkv
        · rw [Bool.not_eq_true] at h2
          simp only [upload_audio, h1, h2]
          simpa using hm
  · intro ctx env jid ip ofn m hm
    unfold transcode_audio
    have h1 : JobInv (set_job m jid
        (fun j => { j with status := "processing" })) :=
      set_job_inv (fun j => ⟨Or.inr (Or.inl rfl), by simp⟩) hm
    by_cases hff : env.ffmpegFound = true
    · by_cases hok : env.ffmpegOk = true
      · simp only [hff, hok, Bool.not_true, Bool.false_eq_true, if_false,
          if_true]
        exact set_job_inv
          (fun j => ⟨Or.inr (Or.inr (Or.inl rfl)), by simp⟩) h1
      · rw [Bool.not_eq_true] at hok
        simp only [hff, hok, Bool.not_true, Bool.false_eq_true, if_false]
        exact set_job_inv
          (fun j => ⟨Or.inr (Or.inr (Or.inr rfl)), by simp⟩) h1
    · rw [Bool.not_eq_true] at hff
      simp only [hff, Bool.not_false, if_true]
      exact set_job_inv
        (fun j => ⟨Or.inr (Or.inr (Or.inr rfl)), by simp⟩) h1

/-- Witness for claim C9: a concrete run of the background thread on a
one-record pending map keeps the invariant, and a set_job on a missing
identifier leaves a concrete map unchanged. -/
theorem claim_c9_invariant_witness :
    JobInv (transcode_audio
      { secure := fun s => s, uploadDir := "media-source",
        transcodedDir := "content/media/voice" }
      { ffmpegFound := true, ffmpegOk := true, ffmpegErr := "",
        pushErr := none, completedAt := "t1" }
      "id-1" "media-source/id-1_a_01-02.qta" "01-02.m4a"
      [("id-1",
        { status := "pending", input_filename := "a_01-02.qta",
          output_format := "m4a", output_filename := "01-02.m4a",
          output_path := none, error := none, push_error := none,
          created_at := "t0", completed_at := none })]) ∧
    set_job [] "missing" (fun j => { j with status := "error" }) = [] :=
  ⟨claim_c9_invariant.2.2 _ _ "id-1" "media-source/id-1_a_01-02.qta"
    "01-02.m4a" _
    (by
      intro kv hkv
      simp only [List.mem_singleton] at hkv
      subst hkv
      exact ⟨Or.inl rfl, by simp⟩),
   claim_c9_invariant.1 [] "missing" _ rfl⟩

end EloiseRip.Voice

namespace EloiseRip.Validate

/-- Normalisation succeeds exactly on internal references in the words of
the claim: non-empty after stripping and not an anchor, mailto, http,
https, or scheme-relative reference. -/
theorem normalize_isSome (href : String) (d o : String) :
    (normalize_path href d o).isSome = isInternalRef href := by
  unfold normalize_path isInternalRef
  by_cases hg : (stripL href.data).isEmpty ||
      startsWithL (stripL href.data) "#".data ||
      startsWithL (stripL href.data) "mailto:".data ||
      startsWithL (stripL href.data) "http://".data ||
      startsWithL (stripL href.data) "https://".data ||
      startsWithL (stripL href.data) "//".data
  · simp only [hg, if_true, Bool.not_true, Option.isSome_none]
  · rw [Bool.not_eq_true] at hg
    simp only [hg, if_false, Bool.not_false]
    split_ifs <;> simp_all

/-- A recorded error determines its kind, source and reference fields. -/
theorem refError_fields {fs : String → Bool} {o h : String} {k : RefKind}
    {r : String} {e : ErrEntry} (he : refError fs o h k r = some e) :
    e.kind = k ∧ e.href = r ∧ e.source = relTo o h ∧
    ∃ t, normalize_path r (parentDir h) o = some t ∧ fs t = false := by
  unfold refError at he
  cases hn : normalize_path r (parentDir h) o with
  | none => rw [hn] at he; simp at he
  | some t =>
    rw [hn] at he
    dsimp only at he
    by_cases hf : fs t = true
    · rw [if_pos hf] at he; exact absurd he (by simp)
    · rw [Bool.not_eq_true] at hf
      rw [if_neg (by simp [hf])] at he
      injection he with he
      subst he
      exact ⟨rfl, rfl, rfl, t, rfl, hf⟩

/-- Membership of an error entry in one category pass. -/
theorem mem_errSection {fs : String → Bool} {o h : String} {k : RefKind}
    {href : String} (lst : List String) :
    (({ source := relTo o h, kind := k, href := href } : ErrEntry) ∈
      lst.filterMap (refError fs o h k)) ↔
    (href ∈ lst ∧
      ∃ t, normalize_path href (parentDir h) o = some t ∧ fs t = false) := by
  rw [List.mem_filterMap]
  constructor
  · rintro ⟨r, hr, he⟩
    obtain ⟨-, hh, -, ht⟩ := refError_fields he
    dsimp only at hh
    subst hh
    exact ⟨hr, ht⟩
  · rintro ⟨hmem, t, hn, hf⟩
    refine ⟨href, hmem, ?_⟩
    unfold refError
    rw [hn]
    dsimp only
    rw [if_neg (by simp [hf])]

/-- An entry of one kind never comes from the pass of another kind. -/
theorem not_mem_other {fs : String → Bool} {o h : String} {k k' : RefKind}
    {href : String} (lst : List String) (hkk : k ≠ k') :
    (({ source := relTo o h, kind := k, href := href } : ErrEntry) ∉
      lst.filterMap (refError fs o h k')) := by
  intro hmem
  rw [List.mem_filterMap] at hmem
  obtain ⟨r, -, he⟩ := hmem
  obtain ⟨hk, -, -, -⟩ := refError_fields he
  dsimp only at hk
  exact hkk hk

/-- Claim C5: the validator records an error for an extracted reference
exactly when the reference is internal (non-empty and not an anchor,
mailto, http, https, or scheme-relative reference) and the path it
resolves to does not exist, and the exit code is zero exactly when no
internal and no external errors were recorded. -/
theorem claim_c5_reference_errors :
    (∀ (href d o : String),
      (normalize_path href d o).isSome = isInternalRef href) ∧
    (∀ (fs : String → Bool) (o h : String) (refs : HtmlRefs) (k : RefKind)
       (href : String),
      href ∈ refsOfKind k refs →
      ((({ source := relTo o h, kind := k, href := href } : ErrEntry) ∈
          (checkFile fs o h refs).1) ↔
        (∃ t, normalize_path href (parentDir h) o = some t ∧
          fs t = false))) ∧
    (∀ (ie : List ErrEntry) (ee : List String),
      print_report_exit ie ee = 0 ↔ ie = [] ∧ ee = []) := by
  refine ⟨normalize_isSome, ?_, ?_⟩
  · intro fs o h refs k href hmem
    have hsec := fun lst =>
      @mem_errSection fs o h k href lst
    have hoth := fun lst k' hkk =>
      @not_mem_other fs o h k k' href lst hkk
    unfold checkFile
    cases k <;>
      simp only [List.mem_append] <;>
      constructor <;>
      · first
        | (rintro (((((hc | hc) | hc) | hc) | hc) | hc) <;>
            first
              | (exact ((hsec _).mp hc).2)
              | (exact absurd hc (hoth _ _ (by decide))))
        | (intro hc
           simp only [refsOfKind] at hmem
           first
             | exact Or.inl (Or.inl (Or.inl (Or.inl (Or.inl
                 ((hsec _).mpr ⟨hmem, hc⟩)))))
             | exact Or.inl (Or.inl (Or.inl (Or.inl (Or.inr
                 ((hsec _).mpr ⟨hmem, hc⟩)))))
             | exact Or.inl (Or.inl (Or.inl (Or.inr
                 ((hsec _).mpr ⟨hmem, hc⟩))))
             | exact Or.inl (Or.inl (Or.inr ((hsec _).mpr ⟨hmem, hc⟩)))
             | exact Or.inl (Or.inr ((hsec _).mpr ⟨hmem, hc⟩))
             | exact Or.inr ((hsec _).mpr ⟨hmem, hc⟩))
  · intro ie ee
    unfold print_report_exit
    constructor
    · intro hc
      by_cases h1 : ie.isEmpty = true
      · by_cases h2 : ee.isEmpty = true
        · exact ⟨List.isEmpty_iff.mp h1, List.isEmpty_iff.mp h2⟩
        · rw [Bool.not_eq_true] at h2
          rw [h1, h2] at hc
          simp at hc
      · rw [Bool.not_eq_true] at h1
        rw [h1] at hc
        simp at hc
    · rintro ⟨rfl, rfl⟩
      rfl

/-- Witness for claim C5 at a concrete broken link: on an empty
filesystem the reference about.html from /out/index.html is recorded as a
broken-link error, and an error-free run exits with code zero. -/
theorem claim_c5_reference_errors_witness :
    ({ source := relTo "/out" "/out/index.html", kind := RefKind.link,
       href := "about.html" } : ErrEntry) ∈
      (checkFile (fun _ => false) "/out" "/out/index.html"
        { links := ["about.html"], images := [], videos := [],
          posters := [], audio := [], css := [], external := [] }).1 ∧
    print_report_exit [] [] = 0 :=
  ⟨(claim_c5_reference_errors.2.1 (fun _ => false) "/out" "/out/index.html"
      { links := ["about.html"], images := [], videos := [], posters := [],
        audio := [], css := [], external := [] }
      RefKind.link "about.html" (by decide)).mpr
      ⟨"/out/about.html", by decide, rfl⟩,
   (claim_c5_reference_errors.2.2 [] []).mpr ⟨rfl, rfl⟩⟩

/-- Counterexample to claim C6 as stated: media/extra.m4a sits directly in
the media directory, is unreferenced and is no jpg fallback, so the claim
requires it in the orphan report; the categorisation chain drops any file
whose relative path contains none of the substrings images, video, voice,
so the report is empty. -/
theorem claim_c6_counterexample :
    ¬ (("/out/media/extra.m4a" ∈
          orphanedAll (find_orphaned_media "/out" ["media/extra.m4a"] [])) ↔
       ("/out/media/extra.m4a" ∈ allMediaOf "/out" ["media/extra.m4a"] ∧
        strMem "/out/media/extra.m4a" [] = false ∧
        ¬(pathSuffix "/out/media/extra.m4a" = ".jpg" ∧
          strMem (with_suffix "/out/media/extra.m4a" ".avif") [] =
            true))) := by
  decide

/-- Adding a fallback leaves the orphan report unchanged. -/
theorem orphanedAll_addFallback (o : Orphans) (p q : String) :
    q ∈ orphanedAll { o with fallbacks := p :: o.fallbacks } ↔
      q ∈ orphanedAll o := by
  simp [orphanedAll]

/-- Adding an image puts it in the orphan report. -/
theorem orphanedAll_addImage (o : Orphans) (p q : String) :
    q ∈ orphanedAll { o with images := p :: o.images } ↔
      q = p ∨ q ∈ orphanedAll o := by
  simp only [orphanedAll, List.mem_append, List.mem_cons]
  tauto

/-- Adding a video puts it in the orphan report. -/
theorem orphanedAll_addVideo (o : Orphans) (p q : String) :
    q ∈ orphanedAll { o with videos := p :: o.videos } ↔
      q = p ∨ q ∈ orphanedAll o := by
  simp only [orphanedAll, List.mem_append, List.mem_cons]
  tauto

/-- Adding an audio file puts it in the orphan report. -/
theorem orphanedAll_addAudio (o : Orphans) (p q : String) :
    q ∈ orphanedAll { o with audio := p :: o.audio } ↔
      q = p ∨ q ∈ orphanedAll o := by
  simp only [orphanedAll, List.mem_append, List.mem_cons]
  tauto

/-- Membership in the orphan report produced by the categorisation loop. -/
theorem mem_categorizeOrphans (o : String) (ref : List String) :
    ∀ (l : List String) (q : String),
    q ∈ orphanedAll (categorizeOrphans o ref l) ↔
      (q ∈ l ∧
       ¬(pathSuffix q = ".jpg" ∧
         strMem (with_suffix q ".avif") ref = true) ∧
       (containsSubL (relTo o q).data "images".data = true ∨
        containsSubL (relTo o q).data "video".data = true ∨
        containsSubL (relTo o q).data "voice".data = true)) := by
  intro l
  induction l with
  | nil =>
    intro q
    simp [categorizeOrphans, orphanedAll]
  | cons p rest ih =>
    intro q
    show q ∈ orphanedAll (categorizeOrphans o ref (p :: rest)) ↔ _
    unfold categorizeOrphans
    by_cases hfb : (decide (pathSuffix p = ".jpg") &&
        strMem (with_suffix p ".avif") ref) = true
    · rw [if_pos hfb, orphanedAll_addFallback, ih]
      have hfb' : pathSuffix p = ".jpg" ∧
          strMem (with_suffix p ".avif") ref = true := by
        simpa using hfb
      constructor
      · rintro ⟨hq, hnf, hcat⟩
        exact ⟨List.mem_cons_of_mem _ hq, hnf, hcat⟩
      · rintro ⟨hq, hnf, hcat⟩
        rcases List.mem_cons.mp hq with rfl | hq
        · exact absurd hfb' hnf
        · exact ⟨hq, hnf, hcat⟩
    · rw [if_neg hfb]
      have hnf : ¬(pathSuffix p = ".jpg" ∧
          strMem (with_suffix p ".avif") ref = true) := by
        intro h
        exact hfb (by simp [h.1, h.2])
      by_cases h1 : containsSubL (relTo o p).data "images".data = true
      · rw [if_pos h1, orphanedAll_addImage, ih]
        constructor
        · rintro (rfl | ⟨hq, hnf2, hcat⟩)
          · exact ⟨List.mem_cons_self _ _, hnf, Or.inl h1⟩
          · exact ⟨List.mem_cons_of_mem _ hq, hnf2, hcat⟩
        · rintro ⟨hq, hnf2, hcat⟩
          rcases List.mem_cons.mp hq with rfl | hq
          · exact Or.inl rfl
          · exact Or.inr ⟨hq, hnf2, hcat⟩
      · rw [if_neg h1]
        by_cases h2 : containsSubL (relTo o p).data "video".data = true
        · rw [if_pos h2, orphanedAll_addVideo, ih]
          constructor
          · rintro (rfl | ⟨hq, hnf2, hcat⟩)
            · exact ⟨List.mem_cons_self _ _, hnf, Or.inr (Or.inl h2)⟩
            · exact ⟨List.mem_cons_of_mem _ hq, hnf2, hcat⟩
          · rintro ⟨hq, hnf2, hcat⟩
            rcases List.mem_cons.mp hq with rfl | hq
            · exact Or.inl rfl
            · exact Or.inr ⟨hq, hnf2, hcat⟩
        · rw [if_neg h2]
          by_cases h3 : containsSubL (relTo o p).data "voice".data = true
          · rw [if_pos h3, orphanedAll_addAudio, ih]
            constructor
            · rintro (rfl | ⟨hq, hnf2, hcat⟩)
              · exact ⟨List.mem_cons_self _ _, hnf, Or.inr (Or.inr h3)⟩
              · exact ⟨List.mem_cons_of_mem _ hq, hnf2, hcat⟩
            · rintro ⟨hq, hnf2, hcat⟩
              rcases List.mem_cons.mp hq with rfl | hq
              · exact Or.inl rfl
              · exact Or.inr ⟨hq, hnf2, hcat⟩
          · rw [if_neg h3, ih]
            constructor
            · rintro ⟨hq, hnf2, hcat⟩
              exact ⟨List.mem_cons_of_mem _ hq, hnf2, hcat⟩
            · rintro ⟨hq, hnf2, hcat⟩
              rcases List.mem_cons.mp hq with rfl | hq
              · rcases hcat with hc | hc | hc
                · exact absurd hc h1
                · exact absurd hc h2
                · exact absurd hc h3
              · exact ⟨hq, hnf2, hcat⟩

/-- Claim C6 as amended: a media file with one of the four globbed
extensions is reported as orphaned exactly when it is referenced by no
image, video, poster or audio reference, is not a jpg fallback for a
referenced avif sibling, and its path relative to the output directory
contains one of the substrings images, video, or voice; unreferenced
files outside those three categories are silently dropped from the
report. -/
theorem claim_c6_orphan_report :
    ∀ (outdir : String) (mediaFiles referenced : List String) (p : String),
    p ∈ orphanedAll (find_orphaned_media outdir mediaFiles referenced) ↔
      (p ∈ allMediaOf outdir mediaFiles ∧ strMem p referenced = false ∧
       ¬(pathSuffix p = ".jpg" ∧
         strMem (with_suffix p ".avif") referenced = true) ∧
       (containsSubL (relTo outdir p).data "images".data = true ∨
        containsSubL (relTo outdir p).data "video".data = true ∨
        containsSubL (relTo outdir p).data "voice".data = true)) := by
  intro outdir mf ref p
  unfold find_orphaned_media
  rw [mem_categorizeOrphans, mem_ordSort, List.mem_filter]
  constructor
  · rintro ⟨⟨hm, hr⟩, hnf, hcat⟩
    rw [Bool.not_eq_true'] at hr
    exact ⟨hm, hr, hnf, hcat⟩
  · rintro ⟨hm, hr, hnf, hcat⟩
    exact ⟨⟨hm, by simp [hr]⟩, hnf, hcat⟩

/-- Witness for the amended claim C6: an unreferenced jpg under
media/images is reported as orphaned. -/
theorem claim_c6_orphan_report_witness :
    "/out/media/images/a.jpg" ∈
      orphanedAll (find_orphaned_media "/out" ["media/images/a.jpg"] []) :=
  (claim_c6_orphan_report "/out" ["media/images/a.jpg"] []
    "/out/media/images/a.jpg").mpr
    ⟨by decide, by decide, by decide, by decide⟩

end EloiseRip.Validate

namespace EloiseRip.VideoEmbed

/-- Every character matches itself. -/
theorem chMatch_refl (p : Char) : chMatch p p = true := by
  simp [chMatch]

/-- Unfolding of a successful single-character match. -/
theorem chMatch_elim {p c : Char} (h : chMatch p c = true) :
    c = p ∨ (p.isLower = true ∧ c = p.toUpper) := by
  unfold chMatch at h
  rw [Bool.or_eq_true] at h
  rcases h with h | h
  · exact Or.inl (by simpa using h)
  · rw [Bool.and_eq_true] at h
    exact Or.inr ⟨h.1, by simpa using h.2⟩

/-- The opening bracket only matches itself. -/
theorem chMatch_lbracket {c : Char} (h : chMatch '[' c = true) : c = '[' := by
  rcases chMatch_elim h with h | ⟨h1, h2⟩
  · exact h
  · exact absurd h1 (by decide)

/-- The closing bracket only matches itself. -/
theorem chMatch_rbracket {c : Char} (h : chMatch ']' c = true) : c = ']' := by
  rcases chMatch_elim h with h | ⟨h1, h2⟩
  · exact h
  · exact absurd h1 (by decide)

/-- The less-than sign only matches itself. -/
theorem chMatch_lt {c : Char} (h : chMatch '<' c = true) : c = '<' := by
  rcases chMatch_elim h with h | ⟨h1, h2⟩
  · exact h
  · exact absurd h1 (by decide)

/-- No character of the token opening matches as a less-than sign. -/
theorem chMatch_litCore_ne_lt {p c : Char} (hp : p ∈ litCore)
    (h : chMatch p c = true) : c ≠ '<' := by
  intro hc
  subst hc
  simp only [litCore, List.mem_cons, List.not_mem_nil, or_false] at hp
  rcases hp with rfl | rfl | rfl | rfl | rfl | rfl | rfl | rfl <;>
    revert h <;> decide

/-- Name characters are not the less-than sign. -/
theorem isNameCh_ne_lt {c : Char} (h : isNameCh c = true) : c ≠ '<' := by
  intro hc
  subst hc
  revert h
  decide

/-- Name characters are not the opening bracket. -/
theorem isNameCh_ne_lbracket {c : Char} (h : isNameCh c = true) :
    c ≠ '[' := by
  intro hc
  subst hc
  revert h
  decide

/-- A successful literal match decomposes the input, can be replayed on
any continuation, and matches the pattern pointwise. -/
theorem matchLit_some :
    ∀ (ps cs r : List Char), matchLit ps cs = some r →
    ∃ w, cs = w ++ r ∧ (∀ t, matchLit ps (w ++ t) = some t) ∧
      List.Forall₂ (fun p c => chMatch p c = true) ps w := by
  intro ps
  induction ps with
  | nil =>
    intro cs r h
    injection h with h
    subst h
    exact ⟨[], rfl, fun t => rfl, List.Forall₂.nil⟩
  | cons p ps ih =>
    intro cs r h
    cases cs with
    | nil => exact absurd h (by simp [matchLit])
    | cons c cs =>
      unfold matchLit at h
      by_cases hm : chMatch p c = true
      · rw [if_pos hm] at h
        obtain ⟨w, rfl, hrep, hf⟩ := ih cs r h
        refine ⟨c :: w, rfl, ?_, List.Forall₂.cons hm hf⟩
        intro t
        show matchLit (p :: ps) (c :: (w ++ t)) = some t
        unfold matchLit
        rw [if_pos hm]
        exact hrep t
      · rw [if_neg hm] at h
        exact absurd h (by simp)

/-- A literal matches itself followed by anything. -/
theorem matchLit_self : ∀ (ps t : List Char), matchLit ps (ps ++ t) = some t := by
  intro ps
  induction ps with
  | nil => intro t; rfl
  | cons p ps ih =>
    intro t
    show matchLit (p :: ps) (p :: (ps ++ t)) = some t
    unfold matchLit
    rw [if_pos (chMatch_refl p)]
    exact ih t

/-- Each matched character comes from some pattern character. -/
theorem forall₂_mem {R : Char → Char → Prop} :
    ∀ {ps w : List Char}, List.Forall₂ R ps w →
    ∀ c ∈ w, ∃ p ∈ ps, R p c := by
  intro ps w h
  induction h with
  | nil => intro c hc; exact absurd hc (List.not_mem_nil _)
  | cons hR hF ih =>
    intro c hc
    rcases List.mem_cons.mp hc with rfl | hc
    · exact ⟨_, List.mem_cons_self _ _, hR⟩
    · obtain ⟨p, hp, hpr⟩ := ih c hc
      exact ⟨p, List.mem_cons_of_mem _ hp, hpr⟩

/-- Take and drop across an append whose left part satisfies the
predicate and whose right part starts with a failing character. -/
theorem takeWhile_app {p : Char → Bool} :
    ∀ (w t : List Char), (∀ c ∈ w, p c = true) →
    (∀ c t', t = c :: t' → p c = false) →
    (w ++ t).takeWhile p = w ∧ (w ++ t).dropWhile p = t := by
  intro w
  induction w with
  | nil =>
    intro t hw ht
    cases t with
    | nil => exact ⟨rfl, rfl⟩
    | cons c t' =>
      have := ht c t' rfl
      exact ⟨List.takeWhile_cons_of_neg (by simp [this]),
             List.dropWhile_cons_of_neg (by simp [this])⟩
  | cons a w ih =>
    intro t hw ht
    have ha : p a = true := hw a (List.mem_cons_self _ _)
    have h2 := ih t (fun c hc => hw c (List.mem_cons_of_mem _ hc)) ht
    constructor
    · show ((a :: w) ++ t).takeWhile p = a :: w
      rw [List.cons_append, List.takeWhile_cons_of_pos ha, h2.1]
    · show ((a :: w) ++ t).dropWhile p = t
      rw [List.cons_append, List.dropWhile_cons_of_pos ha, h2.2]

end EloiseRip.VideoEmbed

namespace EloiseRip.VideoEmbed

/-- A successful bare-token match decomposes the input as an opening
bracket followed by match characters and the rest, yields a nonempty name
of name characters, uses no less-than sign, and can be replayed on any
continuation. -/
theorem matchCore_replay {u name r : List Char}
    (h : matchCore u = some (name, r)) :
    ∃ w₁ : List Char, u = ('[' :: w₁) ++ r ∧
      (∀ c ∈ ('[' :: w₁ : List Char), c ≠ '<') ∧
      (∀ c ∈ name, isNameCh c = true) ∧ name ≠ [] ∧
      (∀ t, matchCore (('[' :: w₁) ++ t) = some (name, t)) := by
  unfold matchCore at h
  cases h8 : matchLit litCore u with
  | none => rw [h8] at h; exact absurd h (by simp)
  | some r1 =>
    rw [h8] at h
    dsimp only at h
    cases hname : r1.takeWhile isNameCh with
    | nil => rw [hname] at h; exact absurd h (by simp)
    | cons n0 ns =>
      rw [hname] at h
      dsimp only at h
      cases h2 : matchLit litClose (r1.dropWhile isNameCh) with
      | none => rw [h2] at h; exact absurd h (by simp)
      | some r2 =>
        rw [h2] at h
        dsimp only at h
        injection h with h
        injection h with hn hr
        subst hn
        subst hr
        obtain ⟨w8, hu, hrep8, hf8⟩ := matchLit_some _ _ _ h8
        obtain ⟨wc, hdrop, hrepc, hfc⟩ := matchLit_some _ _ _ h2
        -- the closing literal matched exactly two closing brackets
        obtain ⟨c1, c2, rfl, hc1, hc2⟩ :
            ∃ c1 c2, wc = [c1, c2] ∧ chMatch ']' c1 = true ∧
              chMatch ']' c2 = true := by
          cases hfc with
          | cons hR hF =>
            cases hF with
            | cons hR2 hF2 =>
              cases hF2
              exact ⟨_, _, rfl, hR, hR2⟩
        obtain rfl : c1 = ']' := chMatch_rbracket hc1
        obtain rfl : c2 = ']' := chMatch_rbracket hc2
        -- the opening literal starts with the bracket
        obtain ⟨cH, w8', rfl, hcH⟩ :
            ∃ cH w8', w8 = cH :: w8' ∧ chMatch '[' cH = true := by
          cases hf8 with
          | cons hR hF => exact ⟨_, _, rfl, hR⟩
        obtain rfl : cH = '[' := chMatch_lbracket hcH
        have hr1 : r1 = (n0 :: ns) ++ (']' :: ']' :: r2) := by
          have hjoin := List.takeWhile_append_dropWhile isNameCh r1
          rw [hname, hdrop] at hjoin
          exact hjoin.symm
        have hnamechars : ∀ c ∈ (n0 :: ns : List Char), isNameCh c = true := by
          intro c hc
          exact List.mem_takeWhile_imp (x := c) (hname ▸ hc)
        refine ⟨w8' ++ (n0 :: ns) ++ [']', ']'], ?_, ?_, hnamechars,
          by simp, ?_⟩
        · rw [hu, hr1]
          simp
        · intro c hc
          rcases List.mem_cons.mp hc with rfl | hc
          · decide
          · rcases List.mem_append.mp hc with hc | hc
            · rcases List.mem_append.mp hc with hc | hc
              · obtain ⟨p, hp, hpr⟩ :=
                  forall₂_mem hf8 c (List.mem_cons_of_mem _ hc)
                exact chMatch_litCore_ne_lt hp hpr
              · exact isNameCh_ne_lt (hnamechars c hc)
            · simp only [List.mem_cons, List.not_mem_nil, or_false] at hc
              rcases hc with rfl | rfl <;> decide
        · intro t
          have hshape : ('[' :: (w8' ++ (n0 :: ns) ++ [']', ']'])) ++ t =
              ('[' :: w8') ++ ((n0 :: ns) ++ (']' :: ']' :: t)) := by
            simp
          rw [hshape]
          unfold matchCore
          rw [hrep8 ((n0 :: ns) ++ (']' :: ']' :: t))]
          have htw := takeWhile_app (p := isNameCh) (n0 :: ns)
            (']' :: ']' :: t) hnamechars
            (fun c t' ht => by
              injection ht with h1 h2
              subst h1
              decide)
          dsimp only
          rw [htw.1, htw.2]
          dsimp only
          rw [show (']' :: ']' :: t : List Char) = litClose ++ t from rfl,
            matchLit_self]

/-- A successful wrapper-opening match lands on a suffix and consumes at
least three characters. -/
theorem matchPfx_facts {u r : List Char} (h : matchPfx u = some r) :
    r <:+ u ∧ r.length + 3 ≤ u.length := by
  unfold matchPfx at h
  cases h1 : matchLit litPfx u with
  | none => rw [h1] at h; exact absurd h (by simp)
  | some r1 =>
    rw [h1] at h
    dsimp only at h
    cases h2 : r1.dropWhile (fun c => decide (c ≠ '>')) with
    | nil => rw [h2] at h; exact absurd h (by simp)
    | cons c r2 =>
      rw [h2] at h
      dsimp only at h
      by_cases hc : c = '>'
      · rw [if_pos hc] at h
        subst hc
        injection h with h
        rw [← h]
        obtain ⟨w2, hu, -, hf2⟩ := matchLit_some _ _ _ h1
        have hw2 : w2.length = 2 := by
          have hlen := hf2.length_eq
          simpa [litPfx] using hlen.symm
        have hsufd : ('>' :: r2) <:+ r1 := h2 ▸ List.dropWhile_suffix _
        have hsuf1 : r1 <:+ u := hu ▸ List.suffix_append w2 r1
        constructor
        · exact ((List.suffix_cons '>' r2).trans hsufd).trans hsuf1
        · have hlen1 : r2.length + 1 ≤ r1.length := by
            simpa using hsufd.length_le
          have hlenu : u.length = w2.length + r1.length := by
            rw [hu, List.length_append]
          omega
      · rw [if_neg hc] at h
        exact absurd h (by simp)

/-- A successful bare-token match consumes at least one character. -/
theorem matchCore_strict {u name r : List Char}
    (h : matchCore u = some (name, r)) : r.length < u.length := by
  obtain ⟨w₁, hu, -, -, -, -⟩ := matchCore_replay h
  rw [hu]
  simp only [List.cons_append, List.length_cons, List.length_append]
  omega

/-- The empty input matches nothing. -/
theorem matchAt_nil : matchAt ([] : List Char) = none := rfl

/-- A successful full match consumes at least one character and captures
only name characters. -/
theorem matchAt_strict {u name r : List Char}
    (h : matchAt u = some (name, r)) :
    r.length < u.length ∧ ∀ c ∈ name, isNameCh c = true := by
  have hNo : ∀ nm rr, matchNoPfx u = some (nm, rr) →
      rr.length < u.length ∧ ∀ c ∈ nm, isNameCh c = true := by
    intro nm rr hh
    unfold matchNoPfx at hh
    cases hc : matchCore u with
    | none => rw [hc] at hh; exact absurd hh (by simp)
    | some nr =>
      rw [hc] at hh
      obtain ⟨nm', r3⟩ := nr
      injection hh with hh
      injection hh with hh1 hh2
      subst hh1
      obtain ⟨w₁, hu, -, hnc, -, -⟩ := matchCore_replay hc
      have h1 : r3.length < u.length := matchCore_strict hc
      have h2 : rr.length ≤ r3.length := by
        rw [← hh2]
        exact (List.dropWhile_suffix _).length_le
      exact ⟨by omega, hnc⟩
  unfold matchAt at h
  cases hp : matchPfx u with
  | none => rw [hp] at h; exact hNo _ _ h
  | some r1 =>
    rw [hp] at h
    dsimp only at h
    cases hc : matchCore (r1.dropWhile isSpaceCh) with
    | none => rw [hc] at h; exact hNo _ _ h
    | some nr =>
      rw [hc] at h
      obtain ⟨nm', r3⟩ := nr
      dsimp only at h
      cases hcl : matchLit litPClose (r3.dropWhile isSpaceCh) with
      | none => rw [hcl] at h; exact hNo _ _ h
      | some r5 =>
        rw [hcl] at h
        dsimp only at h
        injection h with h
        injection h with hh1 hh2
        subst hh1
        subst hh2
        obtain ⟨hs1, hl1⟩ := matchPfx_facts hp
        have hl2 : (r1.dropWhile isSpaceCh).length ≤ r1.length :=
          (List.dropWhile_suffix _).length_le
        have hl3 : r3.length < (r1.dropWhile isSpaceCh).length :=
          matchCore_strict hc
        have hl4 : (r3.dropWhile isSpaceCh).length ≤ r3.length :=
          (List.dropWhile_suffix _).length_le
        obtain ⟨w4, hu4, -, hf4⟩ := matchLit_some _ _ _ hcl
        have hl5 : (r3.dropWhile isSpaceCh).length = 4 + r5.length := by
          rw [hu4, List.length_append]
          have hw4 : w4.length = 4 := by
            have hlen := hf4.length_eq
            simpa [litPClose] using hlen.symm
          omega
        obtain ⟨-, -, -, hnc, -, -⟩ := matchCore_replay hc
        exact ⟨by omega, hnc⟩

end EloiseRip.VideoEmbed

namespace EloiseRip.VideoEmbed

/-- A position whose character opens neither a bracket token nor a tag
never matches. -/
theorem matchAt_none_head {c : Char} {t : List Char} (h1 : c ≠ '[')
    (h2 : c ≠ '<') : matchAt (c :: t) = none := by
  have hlb : chMatch '[' c = false := by
    by_contra hb
    rw [Bool.not_eq_false] at hb
    exact h1 (chMatch_lbracket hb)
  have hlt : chMatch '<' c = false := by
    by_contra hb
    rw [Bool.not_eq_false] at hb
    exact h2 (chMatch_lt hb)
  unfold matchAt matchPfx matchNoPfx matchCore
  simp [matchLit, litPfx, litCore, hlb, hlt]

/-- Excess fuel is irrelevant once it covers the input length. -/
theorem substF_irrel (css : List Char) :
    ∀ (f : Nat) (cs : List Char), cs.length ≤ f →
      substF css f cs = substF css cs.length cs := by
  intro f
  induction f using Nat.strong_induction_on with
  | _ f ih =>
    intro cs hle
    cases f with
    | zero =>
      have h0 : cs = [] := List.eq_nil_of_length_eq_zero
        (Nat.le_zero.mp hle)
      subst h0
      rfl
    | succ f' =>
      cases hcs : cs with
      | nil =>
        subst hcs
        rfl
      | cons c cs' =>
        subst hcs
        have hle' : cs'.length + 1 ≤ f' + 1 := by simpa using hle
        cases hm : matchAt (c :: cs') with
        | none =>
          have e1 : substF css (f' + 1) (c :: cs') =
              c :: substF css f' cs' := by
            simp [substF, hm]
          have e2 : substF css (c :: cs').length (c :: cs') =
              c :: substF css cs'.length cs' := by
            simp [substF, hm]
          rw [e1, e2, ih f' (Nat.lt_succ_self f') cs' (by omega)]
        | some nr =>
          obtain ⟨nm, r⟩ := nr
          have hst := (matchAt_strict hm).1
          simp only [List.length_cons] at hst
          have e1 : substF css (f' + 1) (c :: cs') =
              videoHtmlL css nm ++ substF css f' r := by
            simp [substF, hm]
          have e2 : substF css (c :: cs').length (c :: cs') =
              videoHtmlL css nm ++ substF css cs'.length r := by
            simp [substF, hm]
          rw [e1, e2, ih f' (Nat.lt_succ_self f') r (by omega),
            ih cs'.length (by omega) r (by omega)]

/-- Substitution step on a non-matching position. -/
theorem replaceList_keep (css : List Char) {c : Char} {cs : List Char}
    (h : matchAt (c :: cs) = none) :
    replaceList css (c :: cs) = c :: replaceList css cs := by
  show substF css (c :: cs).length (c :: cs) = c :: replaceList css cs
  simp only [List.length_cons]
  simp [substF, h, replaceList]

/-- Substitution step on a matching position. -/
theorem replaceList_match (css : List Char) {cs nm r : List Char}
    (h : matchAt cs = some (nm, r)) :
    replaceList css cs = videoHtmlL css nm ++ replaceList css r := by
  have hst := (matchAt_strict h).1
  cases cs with
  | nil => rw [matchAt_nil] at h; exact absurd h (by simp)
  | cons c cs' =>
    show substF css (c :: cs').length (c :: cs') = _
    simp only [List.length_cons]
    have e1 : substF css (cs'.length + 1) (c :: cs') =
        videoHtmlL css nm ++ substF css cs'.length r := by
      simp [substF, h]
    rw [e1]
    simp only [List.length_cons] at hst
    rw [substF_irrel css cs'.length r (by omega)]
    rfl

/-- Substitution is the identity on text where the pattern never
matches. -/
theorem replaceList_of_noMatch (css : List Char) :
    ∀ cs : List Char, (∀ s, s <:+ cs → matchAt s = none) →
      replaceList css cs = cs := by
  intro cs
  induction cs with
  | nil => intro _; rfl
  | cons c cs ih =>
    intro h
    rw [replaceList_keep css (h _ (List.suffix_refl _))]
    rw [ih (fun s hs => h s (hs.trans (List.suffix_cons c cs)))]

/-- Prepending characters that can start no match commutes with
substitution. -/
theorem replaceList_append_safe (css : List Char) :
    ∀ (pre cs : List Char), (∀ c ∈ pre, c ≠ '[' ∧ c ≠ '<') →
      replaceList css (pre ++ cs) = pre ++ replaceList css cs := by
  intro pre
  induction pre with
  | nil => intro cs _; rfl
  | cons a pre ih =>
    intro cs hpre
    have ha := hpre a (List.mem_cons_self _ _)
    show replaceList css (a :: (pre ++ cs)) = _
    rw [replaceList_keep css (matchAt_none_head ha.1 ha.2)]
    rw [ih cs (fun c hc => hpre c (List.mem_cons_of_mem _ hc))]
    rfl

/-- Prepending text at none of whose positions the pattern matches (in
the full context, look-ahead included) commutes with substitution: the
scanner keeps those characters and continues on the rest. -/
theorem replaceList_prepend_nomatch (css : List Char) :
    ∀ (pre rest : List Char),
      (∀ n, n < pre.length → matchAt (pre.drop n ++ rest) = none) →
      replaceList css (pre ++ rest) = pre ++ replaceList css rest := by
  intro pre
  induction pre with
  | nil => intro rest _; rfl
  | cons a pre ih =>
    intro rest h
    have h0 : matchAt (a :: (pre ++ rest)) = none := by
      have h00 := h 0 (by simp)
      simpa using h00
    show replaceList css (a :: (pre ++ rest)) = _
    rw [replaceList_keep css h0]
    rw [ih rest (fun n hn => by
      have hs := h (n + 1) (by simpa using Nat.succ_lt_succ hn)
      simpa using hs)]
    rfl

end EloiseRip.VideoEmbed

namespace EloiseRip.VideoEmbed

/-- The bare token followed by anything matches the token core. -/
theorem matchCore_token {name : List Char} (hname : name ≠ [])
    (hnc : ∀ c ∈ name, isNameCh c = true) (x : List Char) :
    matchCore (videoTok name ++ x) = some (name, x) := by
  have hshape : videoTok name ++ x =
      litCore ++ (name ++ (']' :: ']' :: x)) := by
    simp [videoTok, litClose]
  rw [hshape]
  unfold matchCore
  rw [matchLit_self]
  dsimp only
  have htw := takeWhile_app (p := isNameCh) name (']' :: ']' :: x) hnc
    (fun c t' ht => by
      injection ht with h1 h2
      subst h1
      decide)
  rw [htw.1, htw.2]
  cases name with
  | nil => exact absurd rfl hname
  | cons n0 ns =>
    dsimp only
    rw [show (']' :: ']' :: x : List Char) = litClose ++ x from rfl,
      matchLit_self]

/-- The full pattern matches a bare token: it consumes the token and the
maximal whitespace run after it. -/
theorem matchAt_token {name ws post : List Char} (hname : name ≠ [])
    (hnc : ∀ c ∈ name, isNameCh c = true)
    (hws : ∀ c ∈ ws, isSpaceCh c = true)
    (hpost : ∀ c t', post = c :: t' → isSpaceCh c = false) :
    matchAt (videoTok name ++ ws ++ post) = some (name, post) := by
  unfold matchAt
  have hpfx : matchPfx (videoTok name ++ ws ++ post) = none := by
    obtain ⟨rest, hrest⟩ :
        ∃ rest, videoTok name ++ ws ++ post = '[' :: rest :=
      ⟨'[' :: 'v' :: 'i' :: 'd' :: 'e' :: 'o' :: ':' ::
        (name ++ (litClose ++ (ws ++ post))), by simp [videoTok, litCore]⟩
    rw [hrest]
    unfold matchPfx
    simp [matchLit, litPfx, show chMatch '<' '[' = false from by decide]
  rw [hpfx]
  dsimp only
  unfold matchNoPfx
  rw [show videoTok name ++ ws ++ post = videoTok name ++ (ws ++ post) from
    by simp, matchCore_token hname hnc]
  dsimp only
  rw [(takeWhile_app (p := isSpaceCh) ws post hws hpost).2]

/-- The full pattern matches a paragraph-wrapped token: the opening tag,
whitespace, the token, whitespace and the closing tag are consumed. -/
theorem matchAt_wrapped {attrs ws1 name ws2 post : List Char}
    (hattrs : ∀ c ∈ attrs, c ≠ '>')
    (hws1 : ∀ c ∈ ws1, isSpaceCh c = true)
    (hname : name ≠ []) (hnc : ∀ c ∈ name, isNameCh c = true)
    (hws2 : ∀ c ∈ ws2, isSpaceCh c = true) :
    matchAt (('<' :: 'p' :: attrs) ++ ('>' :: ws1) ++ videoTok name ++
      ws2 ++ litPClose ++ post) = some (name, post) := by
  unfold matchAt
  have hshape : ('<' :: 'p' :: attrs) ++ ('>' :: ws1) ++ videoTok name ++
      ws2 ++ litPClose ++ post =
      litPfx ++ (attrs ++ ('>' ::
        (ws1 ++ (videoTok name ++ (ws2 ++ (litPClose ++ post)))))) := by
    simp [litPfx]
  rw [hshape]
  have hpfx : matchPfx (litPfx ++ (attrs ++ ('>' ::
      (ws1 ++ (videoTok name ++ (ws2 ++ (litPClose ++ post))))))) =
      some (ws1 ++ (videoTok name ++ (ws2 ++ (litPClose ++ post)))) := by
    unfold matchPfx
    rw [matchLit_self]
    dsimp only
    have hdw := takeWhile_app (p := fun c => decide (c ≠ '>')) attrs
      ('>' :: (ws1 ++ (videoTok name ++ (ws2 ++ (litPClose ++ post)))))
      (fun c hc => by simp [hattrs c hc])
      (fun c t' ht => by
        injection ht with h1 h2
        subst h1
        decide)
    rw [hdw.2]
    dsimp only
    rw [if_pos rfl]
  rw [hpfx]
  dsimp only
  have hdw1 := takeWhile_app (p := isSpaceCh) ws1
    (videoTok name ++ (ws2 ++ (litPClose ++ post))) hws1
    (fun c t' ht => by
      have : videoTok name ++ (ws2 ++ (litPClose ++ post)) =
          '[' :: (litCore.tail ++ name ++ litClose ++
            (ws2 ++ (litPClose ++ post))) := by
        simp [videoTok, litCore, litClose]
      rw [this] at ht
      injection ht with h1 h2
      subst h1
      decide)
  rw [hdw1.2, matchCore_token hname hnc]
  dsimp only
  have hdw2 := takeWhile_app (p := isSpaceCh) ws2 (litPClose ++ post) hws2
    (fun c t' ht => by
      have : litPClose ++ post = '<' :: ('/' :: 'p' :: '>' :: post) := rfl
      rw [this] at ht
      injection ht with h1 h2
      subst h1
      decide)
  rw [hdw2.2, matchLit_self]

end EloiseRip.VideoEmbed

namespace EloiseRip.VideoEmbed

/-- Decomposition of the generated markup into its literal chunks around
the css class and the two name occurrences. -/
theorem videoHtmlL_eq (css name : List Char) :
    videoHtmlL css name =
      htmlA ++ (css ++ (htmlB ++ (name ++ (htmlC ++ (name ++ htmlD))))) := by
  unfold videoHtmlL build_video_html htmlA htmlB htmlC htmlD
  simp only [String.data_append, List.append_assoc]

/-- The generated markup contains no opening bracket when the css class
contains none and the name is made of name characters. -/
theorem lbracket_not_mem_html {css name : List Char} (hc : '[' ∉ css)
    (hn : ∀ c ∈ name, isNameCh c = true) : '[' ∉ videoHtmlL css name := by
  rw [videoHtmlL_eq]
  intro h
  simp only [List.mem_append] at h
  rcases h with h | h | h | h | h | h | h
  · revert h; decide
  · exact hc h
  · revert h; decide
  · exact absurd (hn _ h) (by decide)
  · revert h; decide
  · exact absurd (hn _ h) (by decide)
  · revert h; decide

/-- The generated markup starts with a less-than sign. -/
theorem videoHtmlL_head (css name : List Char) :
    ∃ t, videoHtmlL css name = '<' :: t := by
  refine ⟨"figure class=\"".data ++
    (css ++ (htmlB ++ (name ++ (htmlC ++ (name ++ htmlD))))), ?_⟩
  rw [videoHtmlL_eq]
  rfl

set_option maxRecDepth 8000 in
/-- Counterexample to claim C2 as stated: on the input consisting of a
bare token, a space and the letter x, the claim requires the token alone
to be replaced, keeping the following space; the pattern also consumes
the trailing whitespace, so the space is dropped from the output. -/
theorem claim_c2_counterexample :
    replaceMarkersInText "[[video:a]] x" "embedded-video" ≠
      build_video_html "a" "" true "embedded-video" ++ " x" := by
  decide

/-- Claim C2 as amended: an occurrence of the token (written lowercase
here; the pattern is case-insensitive), together with the whitespace run
immediately following it, is replaced by the figure markup produced by
build_video_html, the substitution continuing on the rest.  The text
before the occurrence is arbitrary, restricted only by the requirement
that the pattern match at none of its positions (in the full text), so
that the occurrence shown is the leftmost one the left-to-right scan of
re.sub reaches; every occurrence is covered by induction on the
substitution continuing in the replaceList of the rest.  Text in which
the pattern finds no match at all is returned unchanged.  The wrapped
form of the same statement is
claim_c2_token_replacement_wrapped. -/
theorem claim_c2_token_replacement :
    (∀ (css pre name ws post : List Char),
      (∀ n, n < pre.length →
        matchAt (pre.drop n ++ (videoTok name ++ ws ++ post)) = none) →
      name ≠ [] → (∀ c ∈ name, isNameCh c = true) →
      (∀ c ∈ ws, isSpaceCh c = true) →
      (∀ c t', post = c :: t' → isSpaceCh c = false) →
      replaceMarkersInText ⟨pre ++ videoTok name ++ ws ++ post⟩ ⟨css⟩ =
        ⟨pre ++ videoHtmlL css name ++ replaceList css post⟩) ∧
    (∀ (text css_class : String),
      (∀ s, s <:+ text.data → matchAt s = none) →
      replaceMarkersInText text css_class = text) := by
  constructor
  · intro css pre name ws post hpre hname hnc hws hpost
    show (⟨replaceList css (pre ++ videoTok name ++ ws ++ post)⟩ : String) = _
    have hsh : pre ++ videoTok name ++ ws ++ post =
        pre ++ (videoTok name ++ ws ++ post) := by simp
    rw [hsh, replaceList_prepend_nomatch css pre _ hpre,
      replaceList_match css (matchAt_token hname hnc hws hpost)]
    exact congrArg String.mk (List.append_assoc pre _ _).symm
  · intro text css_class h
    show (⟨replaceList css_class.data text.data⟩ : String) = text
    rw [replaceList_of_noMatch css_class.data text.data h]

/-- Wrapped-token companion of the amended claim C2: a token wrapped in a
single paragraph pair, with any attributes and surrounding whitespace, is
replaced as a whole by the figure markup; again the text before the
wrapper is arbitrary as long as the pattern matches at none of its
positions, making this the leftmost remaining occurrence. -/
theorem claim_c2_token_replacement_wrapped :
    ∀ (css pre attrs ws1 name ws2 post : List Char),
      (∀ n, n < pre.length →
        matchAt (pre.drop n ++ (('<' :: 'p' :: attrs) ++ ('>' :: ws1) ++
          videoTok name ++ ws2 ++ litPClose ++ post)) = none) →
      (∀ c ∈ attrs, c ≠ '>') →
      (∀ c ∈ ws1, isSpaceCh c = true) →
      name ≠ [] → (∀ c ∈ name, isNameCh c = true) →
      (∀ c ∈ ws2, isSpaceCh c = true) →
      replaceMarkersInText
        ⟨pre ++ ('<' :: 'p' :: attrs) ++ ('>' :: ws1) ++ videoTok name ++
          ws2 ++ litPClose ++ post⟩ ⟨css⟩ =
        ⟨pre ++ videoHtmlL css name ++ replaceList css post⟩ := by
  intro css pre attrs ws1 name ws2 post hpre hattrs hws1 hname hnc hws2
  show (⟨replaceList css (pre ++ ('<' :: 'p' :: attrs) ++ ('>' :: ws1) ++
    videoTok name ++ ws2 ++ litPClose ++ post)⟩ : String) = _
  have hsh : pre ++ ('<' :: 'p' :: attrs) ++ ('>' :: ws1) ++
      videoTok name ++ ws2 ++ litPClose ++ post =
      pre ++ (('<' :: 'p' :: attrs) ++ ('>' :: ws1) ++ videoTok name ++
        ws2 ++ litPClose ++ post) := by simp
  rw [hsh, replaceList_prepend_nomatch css pre _ hpre,
    replaceList_match css (matchAt_wrapped hattrs hws1 hname hnc hws2)]
  exact congrArg String.mk (List.append_assoc pre _ _).symm

set_option maxRecDepth 8000 in
/-- Witness for the amended claim C2 at two concrete inputs: a token
preceded by ordinary closed markup, and a token preceded by a stray
opening bracket; in both the token and its trailing whitespace are
replaced by the markup and the rest of the text is kept. -/
theorem claim_c2_token_replacement_witness :
    (replaceMarkersInText ⟨"<q>hi</q> ".data ++ videoTok "a".data ++
        " ".data ++ "y".data⟩ ⟨"embedded-video".data⟩ =
      ⟨"<q>hi</q> ".data ++ videoHtmlL "embedded-video".data "a".data ++
        replaceList "embedded-video".data "y".data⟩) ∧
    (replaceMarkersInText ⟨"a[b ".data ++ videoTok "z".data ++
        ([] : List Char) ++ "q".data⟩ ⟨"embedded-video".data⟩ =
      ⟨"a[b ".data ++ videoHtmlL "embedded-video".data "z".data ++
        replaceList "embedded-video".data "q".data⟩) :=
  ⟨claim_c2_token_replacement.1 "embedded-video".data "<q>hi</q> ".data
    "a".data " ".data "y".data (by decide) (by decide) (by decide)
    (by decide)
    (fun c t' ht => by
      injection ht with h1 h2
      subst h1
      decide),
  claim_c2_token_replacement.1 "embedded-video".data "a[b ".data
    "z".data ([] : List Char) "q".data (by decide) (by decide) (by decide)
    (by decide)
    (fun c t' ht => by
      injection ht with h1 h2
      subst h1
      decide)⟩

end EloiseRip.VideoEmbed

namespace EloiseRip.VideoEmbed

/-- A suffix of an append is a suffix of the right part or carries a
nonempty suffix of the left part. -/
theorem suffix_append_cases {s ys : List Char} :
    ∀ xs : List Char, s <:+ xs ++ ys → s <:+ ys ∨
      ∃ c u, (c :: u : List Char) <:+ xs ∧ s = (c :: u) ++ ys := by
  intro xs
  induction xs with
  | nil => intro h; exact Or.inl h
  | cons x xs ih =>
    intro h
    rw [List.cons_append, List.suffix_cons_iff] at h
    rcases h with rfl | h
    · exact Or.inr ⟨x, xs, List.suffix_refl _, rfl⟩
    · rcases ih h with h | ⟨c, u, hs, rfl⟩
      · exact Or.inl h
      · exact Or.inr ⟨c, u, hs.trans (List.suffix_cons x xs), rfl⟩

/-- The head of a nonempty suffix is a member. -/
theorem mem_of_cons_suffix {c : Char} {u l : List Char}
    (h : (c :: u) <:+ l) : c ∈ l := by
  obtain ⟨t, ht⟩ := h
  rw [← ht]
  simp

/-- A successful bare-token match starts with an opening bracket. -/
theorem matchCore_head {u nm r : List Char}
    (h : matchCore u = some (nm, r)) : ∃ t, u = '[' :: t := by
  obtain ⟨w₁, hu, -, -, -, -⟩ := matchCore_replay h
  exact ⟨w₁ ++ r, by rw [hu]; rfl⟩

/-- A full match yields a bare-token match on some suffix. -/
theorem matchAt_some_core {u nm r : List Char}
    (h : matchAt u = some (nm, r)) :
    ∃ s, s <:+ u ∧ matchCore s ≠ none := by
  unfold matchAt at h
  cases hp : matchPfx u with
  | none =>
    rw [hp] at h
    dsimp only at h
    unfold matchNoPfx at h
    cases hc : matchCore u with
    | none => rw [hc] at h; exact absurd h (by simp)
    | some nr2 => exact ⟨u, List.suffix_refl u, by simp [hc]⟩
  | some r1 =>
    rw [hp] at h
    dsimp only at h
    cases hc : matchCore (r1.dropWhile isSpaceCh) with
    | none =>
      rw [hc] at h
      dsimp only at h
      unfold matchNoPfx at h
      cases hc2 : matchCore u with
      | none => rw [hc2] at h; exact absurd h (by simp)
      | some nr2 => exact ⟨u, List.suffix_refl u, by simp [hc2]⟩
    | some nr2 =>
      exact ⟨r1.dropWhile isSpaceCh,
        (List.dropWhile_suffix _).trans (matchPfx_facts hp).1,
        by simp [hc]⟩

/-- When no suffix carries a bare-token match, the full pattern cannot
match either. -/
theorem matchAt_none_of_noCore {u : List Char}
    (h : ∀ s, s <:+ u → matchCore s = none) : matchAt u = none := by
  cases hm : matchAt u with
  | none => rfl
  | some nr =>
    obtain ⟨nm, r⟩ := nr
    obtain ⟨s, hs, hc⟩ := matchAt_some_core hm
    exact absurd (h s hs) hc

/-- A prefix of the substitution output made of characters other than the
less-than sign is a literal prefix of the input: every markup insertion
starts with a less-than sign. -/
theorem replaceList_pullback (css : List Char) :
    ∀ (w cs t : List Char), (∀ c ∈ w, c ≠ '<') →
      replaceList css cs = w ++ t → ∃ t', cs = w ++ t' := by
  intro w
  induction w with
  | nil => intro cs t _ _; exact ⟨cs, rfl⟩
  | cons a w ih =>
    intro cs t hw heq
    cases cs with
    | nil =>
      rw [show replaceList css [] = [] from rfl] at heq
      exact absurd heq (by simp)
    | cons c cs' =>
      cases hm : matchAt (c :: cs') with
      | none =>
        rw [replaceList_keep css hm] at heq
        rw [List.cons_append] at heq
        injection heq with h1 h2
        obtain ⟨t', ht'⟩ := ih cs' t
          (fun x hx => hw x (List.mem_cons_of_mem _ hx)) h2
        refine ⟨t', ?_⟩
        rw [h1, ht']
        rfl
      | some nr =>
        obtain ⟨nm, r⟩ := nr
        rw [replaceList_match css hm] at heq
        obtain ⟨hh, hhead⟩ := videoHtmlL_head css nm
        rw [hhead, List.cons_append, List.cons_append] at heq
        injection heq with h1 h2
        exact absurd h1.symm (hw a (List.mem_cons_self _ _))

/-- No suffix of the substitution output carries a bare-token match, when
the css class contains no opening bracket. -/
theorem noCore_out (css : List Char) (hcss : '[' ∉ css) :
    ∀ (N : Nat) (cs : List Char), cs.length ≤ N →
      ∀ s, s <:+ replaceList css cs → matchCore s = none := by
  intro N
  induction N with
  | zero =>
    intro cs hle s hs
    have h0 : cs = [] := List.eq_nil_of_length_eq_zero (Nat.le_zero.mp hle)
    subst h0
    obtain ⟨t, ht⟩ := hs
    rw [show replaceList css [] = [] from rfl] at ht
    rw [List.append_eq_nil] at ht
    rw [ht.2]
    rfl
  | succ N ih =>
    intro cs hle s hs
    cases hcs : cs with
    | nil =>
      subst hcs
      obtain ⟨t, ht⟩ := hs
      rw [show replaceList css [] = [] from rfl] at ht
      rw [List.append_eq_nil] at ht
      rw [ht.2]
      rfl
    | cons c cs' =>
      subst hcs
      simp only [List.length_cons] at hle
      cases hm : matchAt (c :: cs') with
      | some nr =>
        obtain ⟨nm, r⟩ := nr
        rw [replaceList_match css hm] at hs
        have hst := matchAt_strict hm
        simp only [List.length_cons] at hst
        rcases suffix_append_cases _ hs with hs2 | ⟨d, u, hdu, rfl⟩
        · exact ih r (by omega) s hs2
        · cases h2 : matchCore ((d :: u) ++ replaceList css r) with
          | none => rfl
          | some nr2 =>
            exfalso
            obtain ⟨nm2, r2⟩ := nr2
            obtain ⟨t0, ht0⟩ := matchCore_head h2
            rw [List.cons_append] at ht0
            injection ht0 with hd hrest
            have hmem : ('[' : Char) ∈ videoHtmlL css nm := by
              rw [← hd]
              exact mem_of_cons_suffix hdu
            exact lbracket_not_mem_html hcss hst.2 hmem
      | none =>
        rw [replaceList_keep css hm] at hs
        rw [List.suffix_cons_iff] at hs
        rcases hs with rfl | hs
        · cases h2 : matchCore (c :: replaceList css cs') with
          | none => rfl
          | some nr2 =>
            exfalso
            obtain ⟨nm2, r2⟩ := nr2
            obtain ⟨w₁, hu, hw, hnc2, hne, hrep⟩ := matchCore_replay h2
            rw [List.cons_append] at hu
            injection hu with h1 h2'
            obtain ⟨t', ht'⟩ := replaceList_pullback css w₁ cs' r2
              (fun x hx => hw x (List.mem_cons_of_mem _ hx)) h2'
            have hcs0 : c :: cs' = ('[' :: w₁) ++ t' := by
              rw [List.cons_append, h1, ht']
            have hcore : matchCore (c :: cs') = some (nm2, t') := by
              rw [hcs0]
              exact hrep t'
            have hat : matchAt (c :: cs') =
                some (nm2, t'.dropWhile isSpaceCh) := by
              unfold matchAt
              have hpfx : matchPfx (c :: cs') = none := by
                rw [h1]
                unfold matchPfx
                simp [matchLit, litPfx,
                  show chMatch '<' '[' = false from by decide]
              rw [hpfx]
              dsimp only
              unfold matchNoPfx
              rw [hcore]
            rw [hm] at hat
            exact absurd hat (by simp)
        · exact ih cs' (by omega) s hs

/-- Claim C10: marker expansion with the default figure class is
idempotent, and the generated markup admits no pattern match at any
position, so the plugin can safely run the same substitution at both the
content-init and the generators-finalized stage. -/
theorem claim_c10_idempotent :
    (∀ text : String,
      replaceMarkersInText (replaceMarkersInText text defaultCss)
        defaultCss = replaceMarkersInText text defaultCss) ∧
    (∀ name : List Char, (∀ c ∈ name, isNameCh c = true) →
      ∀ s, s <:+ videoHtmlL defaultCss.data name → matchAt s = none) := by
  have hcss : '[' ∉ defaultCss.data := by decide
  constructor
  · intro text
    refine congrArg String.mk ?_
    apply replaceList_of_noMatch
    intro s hs
    apply matchAt_none_of_noCore
    intro s' hs'
    exact noCore_out defaultCss.data hcss text.data.length text.data
      (le_refl _) s' (hs'.trans hs)
  · intro name hn s hs
    apply matchAt_none_of_noCore
    intro s' hs'
    cases h2 : matchCore s' with
    | none => rfl
    | some nr =>
      exfalso
      obtain ⟨nm, r⟩ := nr
      obtain ⟨t0, ht0⟩ := matchCore_head h2
      have hmem : ('[' : Char) ∈ videoHtmlL defaultCss.data name := by
        have hsuf : s' <:+ videoHtmlL defaultCss.data name := hs'.trans hs
        rw [ht0] at hsuf
        exact mem_of_cons_suffix hsuf
      exact lbracket_not_mem_html hcss hn hmem

/-- Witness for claim C10: the markup generated for a concrete name
admits no match at its start. -/
theorem claim_c10_idempotent_witness :
    matchAt (videoHtmlL defaultCss.data "a".data) = none :=
  claim_c10_idempotent.2 "a".data (by decide) _ (List.suffix_refl _)

end EloiseRip.VideoEmbed
